import Mathlib

/-!
Shallow embedding of the PyRTL structural core under verification:
the combinational-loop detector (`_check_for_loop` / `find_loop` in
`pyrtl/helperfuncs.py`) and the memory port model (`MemBlock` / `RomBlock`
in `pyrtl/memory.py`).

Wires are identified by natural-number ids; the wire classes
(Input, Const, Output, Register, plain WireVector) become a kind tag.
Python sets are embedded as lists; a Python set iteration is embedded as
iteration in list order (one admissible order; the properties proved are
order independent).  Python exceptions become explicit error values, and
where a raising method leaves mutated object state behind, the embedded
operation returns the mutated state together with the error.
-/

/-- Wire classes relevant to `wirevector_subset(exclude=(Input, Const, Output, Register))`. -/
inductive WKind where
  | input
  | const
  | output
  | register
  | regular
deriving DecidableEq, Repr

/-- A wire: identity plus its class. -/
structure Wire where
  wid : Nat
  kind : WKind
deriving DecidableEq, Repr

/-- A `LogicNet`: opcode, ordered argument wires, ordered destination wires.
The `op_param` payload is irrelevant to the loop detector and omitted here. -/
structure Net where
  op : Char
  args : List Nat
  dests : List Nat
deriving DecidableEq, Repr

/-- A block: the container owning all wires and nets of one design. -/
structure Block where
  wires : List Wire
  nets : List Net
deriving DecidableEq, Repr

/-- Embeds `block.wirevector_subset(exclude=(Input, Const, Output, Register))`. -/
def regularWires (b : Block) : List Nat :=
  (b.wires.filter (fun v => v.kind = WKind.regular)).map Wire.wid

/-- Net `n` feeds net `m`: some destination of `n` is an argument of `m`. -/
def connected (n m : Net) : Prop := ∃ w, w ∈ n.dests ∧ w ∈ m.args

instance (n m : Net) : Decidable (connected n m) := by
  unfold connected; infer_instance

/-- Default net used for indexed access in cycle statements. -/
def dNet : Net := ⟨'&', [], []⟩

/-- A register-free (combinational) cycle among the nets of a block: a nonempty
list of non-register nets of the block in which each net feeds the next, cyclically. -/
def isCombCycle (b : Block) (c : List Net) : Prop :=
  c ≠ [] ∧ (∀ n ∈ c, n ∈ b.nets ∧ ¬ n.op = 'r') ∧
    ∀ i, i < c.length → connected (c.getD i dNet) (c.getD ((i + 1) % c.length) dNet)

instance (b : Block) (c : List Net) : Decidable (isCombCycle b c) := by
  unfold isCombCycle; infer_instance

/-- Well-formedness facts about a block that PyRTL's substrate
(`Block.sanity_check`, wire construction) guarantees:
distinct wire identities; destinations of register nets are Register wires and
destinations of other nets are plain or Output wires; arguments are never Output
wires; every plain wire is driven; no wire has two drivers. -/
def WellFormed (b : Block) : Prop :=
  (b.wires.map Wire.wid).Nodup ∧
  (∀ n ∈ b.nets, ∀ w ∈ n.dests, ∃ v ∈ b.wires, v.wid = w ∧
      ((n.op = 'r' → v.kind = WKind.register) ∧
       (¬ n.op = 'r' → (v.kind = WKind.regular ∨ v.kind = WKind.output)))) ∧
  (∀ n ∈ b.nets, ∀ a ∈ n.args, ∃ v ∈ b.wires, v.wid = a ∧ ¬ v.kind = WKind.output) ∧
  (∀ v ∈ b.wires, v.kind = WKind.regular → ∃ n ∈ b.nets, v.wid ∈ n.dests) ∧
  (∀ n₁ ∈ b.nets, ∀ n₂ ∈ b.nets, ∀ w, w ∈ n₁.dests → w ∈ n₂.dests → n₁ = n₂)

instance (b : Block) : Decidable (WellFormed b) := by
  unfold WellFormed; infer_instance

/-!  Phase 1: the pruning fixed point of `_check_for_loop`.

One pass of the `for net in logic_left` loop: a net none of whose arguments is
in the remaining wire set is removed, and its destinations leave the wire set
immediately (the Python code mutates `wires_left` inside the iteration). -/

/-- One pruning pass over the remaining nets.  Returns the surviving wire set
and the kept nets. -/
def prunePass : List Net → List Nat → List Nat × List Net
  | [], wl => (wl, [])
  | n :: rest, wl =>
    if n.args.any (fun a => a ∈ wl) then
      let p := prunePass rest wl
      (p.1, n :: p.2)
    else
      prunePass rest (wl.filter (fun w => ¬ w ∈ n.dests))

/-- The `while prev_logic_left > len(logic_left)` fixed-point loop, indexed by
fuel.  Each iteration strictly shrinks the net list, so `ll.length + 1` units
of fuel always reach the fixed point (`pruneLoop_fix` below). -/
def pruneLoopF : Nat → List Nat → List Net → List Nat × List Net
  | 0, wl, ll => (wl, ll)
  | fuel + 1, wl, ll =>
    let p := prunePass ll wl
    if p.2.length < ll.length then pruneLoopF fuel p.1 p.2 else p

/-- The pruning fixed point of `_check_for_loop`. -/
def pruneLoop (wl : List Nat) (ll : List Net) : List Nat × List Net :=
  pruneLoopF (ll.length + 1) wl ll

/-- Embeds `_check_for_loop`: `None` when pruning empties the net set, else the
surviving wires and nets. -/
def check_for_loop (b : Block) : Option (List Nat × List Net) :=
  let r := pruneLoop (regularWires b) b.nets
  if r.2.length = 0 then none else some r

theorem prunePass_len_le (ll : List Net) (wl : List Nat) :
    (prunePass ll wl).2.length ≤ ll.length := by
  induction ll generalizing wl with
  | nil => simp [prunePass]
  | cons n rest ih =>
    unfold prunePass
    by_cases h : n.args.any (fun a => a ∈ wl)
    · simp only [h, if_pos]
      simpa using ih wl
    · simp only [h, if_neg, Bool.false_eq_true, not_false_iff]
      exact Nat.le_succ_of_le (ih _)

theorem prunePass_wl_subset (ll : List Net) (wl : List Nat) :
    ∀ w ∈ (prunePass ll wl).1, w ∈ wl := by
  induction ll generalizing wl with
  | nil => simp [prunePass]
  | cons n rest ih =>
    intro w hw
    unfold prunePass at hw
    by_cases h : n.args.any (fun a => a ∈ wl)
    · simp only [h, if_pos] at hw
      exact ih wl w hw
    · simp only [h, if_neg, Bool.false_eq_true, not_false_iff] at hw
      have := ih _ w hw
      exact (List.mem_filter.mp this).1

theorem prunePass_ll_subset (ll : List Net) (wl : List Nat) :
    ∀ n ∈ (prunePass ll wl).2, n ∈ ll := by
  induction ll generalizing wl with
  | nil => simp [prunePass]
  | cons n rest ih =>
    intro m hm
    unfold prunePass at hm
    by_cases h : n.args.any (fun a => a ∈ wl)
    · simp only [h, if_pos, List.mem_cons] at hm
      rcases hm with h1 | h2
      · exact List.mem_cons.mpr (Or.inl h1)
      · exact List.mem_cons.mpr (Or.inr (ih wl m h2))
    · simp only [h, if_neg, Bool.false_eq_true, not_false_iff] at hm
      exact List.mem_cons.mpr (Or.inr (ih _ m hm))

/-- If a pass removes nothing, it was the identity and every net had a live argument. -/
theorem prunePass_len_eq (ll : List Net) (wl : List Nat)
    (h : (prunePass ll wl).2.length = ll.length) :
    prunePass ll wl = (wl, ll) ∧ ∀ n ∈ ll, ∃ a ∈ n.args, a ∈ wl := by
  induction ll generalizing wl with
  | nil => simp [prunePass]
  | cons n rest ih =>
    by_cases hk : n.args.any (fun a => a ∈ wl)
    · have hlen : (prunePass rest wl).2.length = rest.length := by
        unfold prunePass at h
        simp only [hk, if_pos, List.length_cons] at h
        omega
      rcases ih wl hlen with ⟨heq, hall⟩
      constructor
      · unfold prunePass
        simp only [hk, if_pos, heq]
      · intro m hm
        rcases List.mem_cons.mp hm with h1 | h2
        · subst h1
          rcases List.any_eq_true.mp hk with ⟨a, ha, hd⟩
          exact ⟨a, ha, of_decide_eq_true hd⟩
        · exact hall m h2
    · exfalso
      have hunf : prunePass (n :: rest) wl =
          prunePass rest (wl.filter (fun w => ¬ w ∈ n.dests)) := by
        simp only [prunePass, hk, if_neg, Bool.false_eq_true, not_false_iff]
      rw [hunf] at h
      have hle := prunePass_len_le rest (wl.filter (fun w => ¬ w ∈ n.dests))
      rw [h] at hle
      simp at hle

/-- Generic invariant carrier for the fueled pruning loop. -/
theorem pruneLoopF_inv (P : List Nat → List Net → Prop)
    (hstep : ∀ wl ll, P wl ll → P (prunePass ll wl).1 (prunePass ll wl).2) :
    ∀ fuel ll wl, P wl ll → P (pruneLoopF fuel wl ll).1 (pruneLoopF fuel wl ll).2 := by
  intro fuel
  induction fuel with
  | zero =>
    intro ll wl hP
    exact hP
  | succ fuel ih =>
    intro ll wl hP
    unfold pruneLoopF
    by_cases h : (prunePass ll wl).2.length < ll.length
    · simp only [h, if_pos]
      exact ih _ _ (hstep wl ll hP)
    · simp only [h, if_neg, Bool.false_eq_true, not_false_iff]
      exact hstep wl ll hP

/-- Generic invariant carrier for the pruning fixed-point loop. -/
theorem pruneLoop_inv (P : List Nat → List Net → Prop)
    (hstep : ∀ wl ll, P wl ll → P (prunePass ll wl).1 (prunePass ll wl).2) :
    ∀ ll wl, P wl ll → P (pruneLoop wl ll).1 (pruneLoop wl ll).2 :=
  fun ll wl hP => pruneLoopF_inv P hstep (ll.length + 1) ll wl hP

theorem pruneLoopF_fix : ∀ fuel (ll : List Net) (wl : List Nat), ll.length < fuel →
    prunePass (pruneLoopF fuel wl ll).2 (pruneLoopF fuel wl ll).1 =
      ((pruneLoopF fuel wl ll).1, (pruneLoopF fuel wl ll).2) := by
  intro fuel
  induction fuel with
  | zero =>
    intro ll wl hlen
    omega
  | succ fuel ih =>
    intro ll wl hlen
    unfold pruneLoopF
    by_cases h : (prunePass ll wl).2.length < ll.length
    · simp only [h, if_pos]
      exact ih _ _ (by omega)
    · simp only [h, if_neg, Bool.false_eq_true, not_false_iff]
      have hlen2 : (prunePass ll wl).2.length = ll.length :=
        Nat.le_antisymm (prunePass_len_le ll wl) (Nat.le_of_not_lt h)
      have heq := (prunePass_len_eq ll wl hlen2).1
      rw [heq]
      rw [heq]

/-- The pruning loop stops at a fixed point: one more pass changes nothing. -/
theorem pruneLoop_fix (wl : List Nat) (ll : List Net) :
    prunePass (pruneLoop wl ll).2 (pruneLoop wl ll).1 =
      ((pruneLoop wl ll).1, (pruneLoop wl ll).2) :=
  pruneLoopF_fix (ll.length + 1) ll wl (Nat.lt_succ_self _)

/-- At the result of the pruning loop, every surviving net has a surviving argument. -/
theorem pruneLoop_live (wl : List Nat) (ll : List Net) :
    ∀ n ∈ (pruneLoop wl ll).2, ∃ a ∈ n.args, a ∈ (pruneLoop wl ll).1 := by
  have hfix := pruneLoop_fix wl ll
  have hlen : (prunePass (pruneLoop wl ll).2 (pruneLoop wl ll).1).2.length =
      (pruneLoop wl ll).2.length := by rw [hfix]
  exact (prunePass_len_eq _ _ hlen).2

theorem pruneLoop_wl_subset (wl : List Nat) (ll : List Net) :
    ∀ w ∈ (pruneLoop wl ll).1, w ∈ wl := by
  have := pruneLoop_inv (fun wl' ll' => ∀ w ∈ wl', w ∈ wl)
    (fun wl' ll' hP w hw => hP w (prunePass_wl_subset ll' wl' w hw)) ll wl
  exact this (fun w hw => hw)

theorem pruneLoop_ll_subset (wl : List Nat) (ll : List Net) :
    ∀ n ∈ (pruneLoop wl ll).2, n ∈ ll := by
  have := pruneLoop_inv (fun wl' ll' => ∀ n ∈ ll', n ∈ ll)
    (fun wl' ll' hP n hn => hP n (prunePass_ll_subset ll' wl' n hn)) ll wl
  exact this (fun n hn => hn)

/-!  Phase 2: the explicit-stack cycle search of `find_loop`.

A `Frame` embeds `_FilteringState`: `visit = none` is the freshly pushed state
(`arg_num = -1`, net unresolved); `visit = some (net, k)` is the visited state
with resolved producing net and current `arg_num = k ≥ 0`. -/

structure Frame where
  dst_w : Nat
  visit : Option (Net × Nat)
deriving DecidableEq, Repr

/-- Search state: `wires_left`, `current_wires`, and `checking_stack`
(head of the list = top of the stack). -/
structure SearchState where
  wires_left : List Nat
  current_wires : List Nat
  stack : List Frame
deriving DecidableEq, Repr

/-- Python `set.discard`: remove the element if present. -/
def discardW (l : List Nat) (w : Nat) : List Nat := l.filter (fun x => ¬ x = w)

/-- Python `set.add`: insert the element if absent. -/
def addW (l : List Nat) (w : Nat) : List Nat := if w ∈ l then l else w :: l

/-- The lazily built map `dest_nets = {dest_w: net_ for net_ in logic_left
for dest_w in net_.dests}` (later bindings overwrite earlier ones). -/
def dest_nets (ll : List Net) : Nat → Option Net :=
  fun w => ll.foldl (fun acc n => if w ∈ n.dests then some n else acc) none

/-- The loop-reconstruction scan: walk the stack from the top, collecting frames
until the frame whose wire is the repeated wire; `none` embeds the
`for ... else: raise` fall-through (the "Shouldn't get here" error). -/
def buildLoop (x : Nat) : List Frame → Option (List Frame)
  | [] => none
  | f :: rest =>
    if f.dst_w = x then some [f]
    else match buildLoop x rest with
      | some l => some (f :: l)
      | none => none

/-- Result of one iteration of the `while len(checking_stack)` loop. -/
inductive StepRes where
  | cont (s : SearchState)
  | found (l : List Frame)
  | noStack
  | errInternal
  | errLookup
  | errIndex
deriving DecidableEq, Repr

/-- The shared tail of an iteration: `cur_item.arg_num` has just been advanced
to `k` (with `net` resolved); compare against `len(args)`, then either dead-end,
push the next argument wire, or detect the loop.  `errIndex` embeds an
out-of-range `args[arg_num]` access (impossible in reachable states). -/
def stepAdvance (wl cur : List Nat) (rest : List Frame) (w : Nat) (net : Net)
    (k : Nat) : StepRes :=
  if k = net.args.length then
    .cont ⟨discardW wl w, discardW cur w, rest⟩
  else
    match net.args.get? k with
    | none => .errIndex
    | some next =>
      if next ∈ cur then
        match buildLoop next (⟨w, some (net, k)⟩ :: rest) with
        | some l => .found l
        | none => .errInternal
      else
        .cont ⟨wl, addW cur next, ⟨next, none⟩ :: ⟨w, some (net, k)⟩ :: rest⟩

/-- One iteration of the search loop, acting on the top frame.
`errLookup` embeds the `dest_nets[...]` KeyError (impossible after pruning). -/
def step (dn : Nat → Option Net) (s : SearchState) : StepRes :=
  match s.stack with
  | [] => .noStack
  | top :: rest =>
    match top.visit with
    | some (net, k) => stepAdvance s.wires_left s.current_wires rest top.dst_w net (k + 1)
    | none =>
      if top.dst_w ∈ s.wires_left then
        match dn top.dst_w with
        | none => .errLookup
        | some net =>
          if net.op = 'r' then
            .cont ⟨discardW s.wires_left top.dst_w,
                   discardW (addW s.current_wires top.dst_w) top.dst_w, rest⟩
          else
            stepAdvance s.wires_left (addW s.current_wires top.dst_w) rest top.dst_w net 0
      else
        .cont ⟨discardW s.wires_left top.dst_w, discardW s.current_wires top.dst_w, rest⟩

/-- Outcome of `find_loop`: `noLoop` embeds returning `None`; `loop` the returned
`loop_info`; the `err*` cases the three raise sites; `fuelOut` is an artifact of
the fuel-indexed embedding of the while loop, proved unreachable below. -/
inductive LoopResult where
  | noLoop
  | loop (l : List Frame)
  | errInternal
  | errExhausted
  | errLookup
  | errIndex
  | fuelOut
deriving DecidableEq, Repr

/-- The `while len(checking_stack)` loop, indexed by fuel. -/
def searchLoop (dn : Nat → Option Net) : Nat → SearchState → LoopResult
  | 0, _ => .fuelOut
  | fuel + 1, s =>
    match step dn s with
    | .cont s' => searchLoop dn fuel s'
    | .found l => .loop l
    | .noStack => .errExhausted
    | .errInternal => .errInternal
    | .errLookup => .errLookup
    | .errIndex => .errIndex

/-- Number of argument edges of the producing net of `w`, used by the
termination measure. -/
def arity (dn : Nat → Option Net) (w : Nat) : Nat :=
  match dn w with
  | some n => n.args.length
  | none => 0

/-- Iterations a frame can still cause (doubled to absorb pushes). -/
def frameCost (dn : Nat → Option Net) (wl : List Nat) : Frame → Nat
  | ⟨w, none⟩ => if w ∈ wl then 2 * arity dn w + 3 else 1
  | ⟨_, some (net, k)⟩ => 2 * (net.args.length - k)

/-- Termination measure of the search loop: weight of untouched live wires plus
cost of the frames on the stack. -/
def phi (dn : Nat → Option Net) (s : SearchState) : Nat :=
  ((s.wires_left.filter (fun w => ¬ w ∈ s.current_wires)).map
      (fun w => 2 * arity dn w + 3)).sum
  + (s.stack.map (frameCost dn s.wires_left)).sum

/-- Initial search state: `current_wires = set()` and a single frame for the
chosen start wire (`initial_w`). -/
def initState (start : Nat) (wl : List Nat) : SearchState :=
  ⟨wl, [], [⟨start, none⟩]⟩

/-- Embeds `find_loop(block)`, with the randomly sampled start wire made an
explicit parameter.  The fuel `phi ... + 1` is sufficient (proved below), so the
function computes exactly the result of the unbounded Python loop. -/
def find_loop (b : Block) (start : Nat) : LoopResult :=
  match check_for_loop b with
  | none => .noLoop
  | some (wl, ll) =>
    let dn := dest_nets ll
    searchLoop dn (phi dn (initState start wl) + 1) (initState start wl)

/-!  Termination of the search loop: every `cont` step strictly decreases `phi`. -/

theorem mem_discard {l : List Nat} {w x : Nat} : x ∈ discardW l w ↔ x ∈ l ∧ ¬ x = w := by
  simp [discardW]

theorem discard_of_not_mem {l : List Nat} {w : Nat} (h : ¬ w ∈ l) : discardW l w = l := by
  unfold discardW
  apply List.filter_eq_self.mpr
  intro a ha
  simp only [decide_eq_true_eq]
  intro haw
  exact h (haw ▸ ha)

theorem mem_addW {l : List Nat} {w x : Nat} : x ∈ addW l w ↔ x = w ∨ x ∈ l := by
  unfold addW
  by_cases h : w ∈ l
  · simp only [h, if_pos]
    constructor
    · exact Or.inr
    · rintro (rfl | hx)
      · exact h
      · exact hx
  · simp [h]

theorem sum_map_le {α : Type} (l : List α) (f g : α → Nat)
    (h : ∀ a ∈ l, f a ≤ g a) : (l.map f).sum ≤ (l.map g).sum := by
  induction l with
  | nil => simp
  | cons a rest ih =>
    simp only [List.map_cons, List.sum_cons]
    have h1 := h a (List.mem_cons_self a rest)
    have h2 := ih (fun x hx => h x (List.mem_cons_of_mem a hx))
    omega

theorem sum_filter_mono (l : List Nat) (p q : Nat → Bool) (f : Nat → Nat)
    (h : ∀ x ∈ l, p x = true → q x = true) :
    ((l.filter p).map f).sum ≤ ((l.filter q).map f).sum := by
  induction l with
  | nil => simp
  | cons a rest ih =>
    have ih' := ih (fun x hx => h x (List.mem_cons_of_mem a hx))
    by_cases hp : p a = true
    · have hq := h a (List.mem_cons_self a rest) hp
      simp only [List.filter_cons, hp, hq, if_pos, List.map_cons, List.sum_cons]
      omega
    · simp only [List.filter_cons, hp, if_neg, Bool.false_eq_true, not_false_iff]
      by_cases hq : q a = true
      · simp only [hq, if_pos, List.map_cons, List.sum_cons]
        omega
      · simp only [hq, if_neg, Bool.false_eq_true, not_false_iff]
        exact ih'

theorem sum_filter_extract (l : List Nat) (p q : Nat → Bool) (f : Nat → Nat) (x : Nat)
    (hx : x ∈ l) (hpx : p x = true) (hqx : q x = false)
    (h : ∀ y ∈ l, q y = true → p y = true) :
    ((l.filter q).map f).sum + f x ≤ ((l.filter p).map f).sum := by
  induction l with
  | nil => simp at hx
  | cons a rest ih =>
    by_cases hax : a = x
    · subst hax
      simp only [List.filter_cons, hqx, hpx, if_pos, Bool.false_eq_true, if_neg,
        not_false_iff, List.map_cons, List.sum_cons]
      have := sum_filter_mono rest q p f (fun y hy => h y (List.mem_cons_of_mem a hy))
      omega
    · have hx' : x ∈ rest := by
        rcases List.mem_cons.mp hx with h1 | h2
        · exact absurd h1.symm hax
        · exact h2
      have ih' := ih hx' (fun y hy => h y (List.mem_cons_of_mem a hy))
      by_cases hqa : q a = true
      · have hpa := h a (List.mem_cons_self a rest) hqa
        simp only [List.filter_cons, hqa, hpa, if_pos, List.map_cons, List.sum_cons]
        omega
      · simp only [List.filter_cons, hqa, Bool.false_eq_true, if_neg, not_false_iff]
        by_cases hpa : p a = true
        · simp only [hpa, if_pos, List.map_cons, List.sum_cons]
          omega
        · simp only [hpa, Bool.false_eq_true, if_neg, not_false_iff]
          exact ih'

/-- Weight of the live wires not yet touched by the search. -/
def wsum (dn : Nat → Option Net) (wl cur : List Nat) : Nat :=
  ((wl.filter (fun w => ¬ w ∈ cur)).map (fun w => 2 * arity dn w + 3)).sum

theorem phi_eq (dn : Nat → Option Net) (s : SearchState) :
    phi dn s = wsum dn s.wires_left s.current_wires
      + (s.stack.map (frameCost dn s.wires_left)).sum := rfl

theorem frameCost_mono (dn : Nat → Option Net) (wl wl' : List Nat)
    (hsub : ∀ v, v ∈ wl' → v ∈ wl) (f : Frame) :
    frameCost dn wl' f ≤ frameCost dn wl f := by
  rcases f with ⟨w, visit⟩
  cases visit with
  | none =>
    simp only [frameCost]
    by_cases h : w ∈ wl'
    · simp [h, hsub w h]
    · simp only [h, if_neg, not_false_iff]
      by_cases h2 : w ∈ wl
      · simp only [h2, if_pos]; omega
      · simp [h2]
  | some nk => simp [frameCost]

theorem fsum_discard (dn : Nat → Option Net) (wl : List Nat) (w : Nat) (st : List Frame) :
    (st.map (frameCost dn (discardW wl w))).sum ≤ (st.map (frameCost dn wl)).sum :=
  sum_map_le st _ _ (fun f _ =>
    frameCost_mono dn wl (discardW wl w) (fun v hv => (mem_discard.mp hv).1) f)

theorem wsum_mono_cur (dn : Nat → Option Net) (wl cur cur₂ : List Nat)
    (hsub : ∀ x, x ∈ cur → x ∈ cur₂) : wsum dn wl cur₂ ≤ wsum dn wl cur := by
  apply sum_filter_mono
  intro x _ hx
  simp only [decide_eq_true_eq] at hx ⊢
  exact fun hc => hx (hsub x hc)

theorem wsum_discard_both (dn : Nat → Option Net) (wl cur : List Nat) (w : Nat) :
    wsum dn (discardW wl w) (discardW cur w) ≤ wsum dn wl cur := by
  unfold wsum discardW
  rw [List.filter_filter]
  apply sum_filter_mono
  intro x _ hx
  simp only [Bool.and_eq_true, decide_eq_true_eq] at hx
  simp only [decide_eq_true_eq]
  intro hc
  exact hx.1 (List.mem_filter.mpr ⟨hc, by simp [hx.2]⟩)

theorem wsum_discard_addW (dn : Nat → Option Net) (wl cur : List Nat) (w : Nat) :
    wsum dn (discardW wl w) (discardW (addW cur w) w) ≤ wsum dn wl cur := by
  unfold wsum discardW
  rw [List.filter_filter]
  apply sum_filter_mono
  intro x _ hx
  simp only [Bool.and_eq_true, decide_eq_true_eq] at hx
  simp only [decide_eq_true_eq]
  intro hc
  apply hx.1
  apply List.mem_filter.mpr
  refine ⟨mem_addW.mpr (Or.inr hc), by simp [hx.2]⟩

theorem wsum_discard_cur_eq (dn : Nat → Option Net) (wl cur : List Nat) (w : Nat)
    (hw : ¬ w ∈ wl) : wsum dn wl (discardW cur w) = wsum dn wl cur := by
  unfold wsum
  have hfilt : wl.filter (fun x => ¬ x ∈ discardW cur w) = wl.filter (fun x => ¬ x ∈ cur) := by
    apply List.filter_congr
    intro x hx
    have hxw : ¬ x = w := fun h => hw (h ▸ hx)
    simp only [mem_discard, decide_eq_decide]
    constructor
    · intro h hc
      exact h ⟨hc, hxw⟩
    · intro h hc
      exact h hc.1
  rw [hfilt]

theorem wsum_extract (dn : Nat → Option Net) (wl cur cur₂ : List Nat) (next : Nat)
    (hnw : next ∈ wl) (hnc : ¬ next ∈ cur) (hsub : ∀ x, x ∈ cur → x ∈ cur₂)
    (hn2 : next ∈ cur₂) :
    wsum dn wl cur₂ + (2 * arity dn next + 3) ≤ wsum dn wl cur := by
  unfold wsum
  have := sum_filter_extract wl (fun x => ¬ x ∈ cur) (fun x => ¬ x ∈ cur₂)
    (fun w => 2 * arity dn w + 3) next hnw (by simpa using hnc) (by simpa using hn2)
    (fun y _ hy => by
      simp only [decide_eq_true_eq] at hy ⊢
      exact fun hc => hy (hsub y hc))
  exact this

theorem arity_of_dn {dn : Nat → Option Net} {w : Nat} {net : Net}
    (h : dn w = some net) : arity dn w = net.args.length := by
  simp [arity, h]

theorem step_phi_lt (dn : Nat → Option Net) (s s' : SearchState)
    (h : step dn s = .cont s') : phi dn s' < phi dn s := by
  rcases s with ⟨wl, cur, stack⟩
  cases stack with
  | nil => simp [step] at h
  | cons top rest =>
    rcases top with ⟨w, visit⟩
    cases visit with
    | some nk =>
      rcases nk with ⟨net, k⟩
      simp only [step] at h
      unfold stepAdvance at h
      by_cases hk : k + 1 = net.args.length
      · rw [if_pos hk] at h
        injection h with h2
        subst h2
        simp only [phi_eq, List.map_cons, List.sum_cons]
        have h1 := wsum_discard_both dn wl cur w
        have h2 := fsum_discard dn wl w rest
        have hfc : frameCost dn wl ⟨w, some (net, k)⟩ = 2 * (net.args.length - k) := rfl
        rw [hfc]
        omega
      · rw [if_neg hk] at h
        rcases hget : net.args.get? (k + 1) with _ | next
        · rw [hget] at h
          cases h
        · rw [hget] at h
          dsimp only at h
          have hlt : k + 1 < net.args.length := by
            by_contra hc
            rw [List.get?_eq_none.mpr (Nat.le_of_not_lt hc)] at hget
            cases hget
          by_cases hnext : next ∈ cur
          · rw [if_pos hnext] at h
            rcases hbl : buildLoop next (⟨w, some (net, k + 1)⟩ :: rest) with _ | l
            · rw [hbl] at h; cases h
            · rw [hbl] at h; cases h
          · rw [if_neg hnext] at h
            injection h with h2
            subst h2
            simp only [phi_eq, List.map_cons, List.sum_cons]
            have hfc1 : frameCost dn wl ⟨w, some (net, k)⟩ = 2 * (net.args.length - k) := rfl
            have hfc2 : frameCost dn wl ⟨w, some (net, k + 1)⟩ =
                2 * (net.args.length - (k + 1)) := rfl
            rw [hfc1, hfc2]
            by_cases hnw : next ∈ wl
            · have hfc3 : frameCost dn wl ⟨next, none⟩ = 2 * arity dn next + 3 := by
                simp [frameCost, hnw]
              rw [hfc3]
              have hext := wsum_extract dn wl cur (addW cur next) next hnw hnext
                (fun x hx => mem_addW.mpr (Or.inr hx)) (mem_addW.mpr (Or.inl rfl))
              omega
            · have hfc3 : frameCost dn wl ⟨next, none⟩ = 1 := by
                simp [frameCost, hnw]
              rw [hfc3]
              have hmono := wsum_mono_cur dn wl cur (addW cur next)
                (fun x hx => mem_addW.mpr (Or.inr hx))
              omega
    | none =>
      simp only [step] at h
      by_cases hw : w ∈ wl
      · rw [if_pos hw] at h
        rcases hdn : dn w with _ | net
        · rw [hdn] at h; cases h
        · rw [hdn] at h
          dsimp only at h
          have har : arity dn w = net.args.length := arity_of_dn hdn
          by_cases hr : net.op = 'r'
          · rw [if_pos hr] at h
            injection h with h2
            subst h2
            simp only [phi_eq, List.map_cons, List.sum_cons]
            have h1 := wsum_discard_addW dn wl cur w
            have h2 := fsum_discard dn wl w rest
            have hfc : frameCost dn wl ⟨w, none⟩ = 2 * arity dn w + 3 := by
              simp [frameCost, hw]
            rw [hfc]
            omega
          · rw [if_neg hr] at h
            unfold stepAdvance at h
            by_cases hk : 0 = net.args.length
            · rw [if_pos hk] at h
              injection h with h2
              subst h2
              simp only [phi_eq, List.map_cons, List.sum_cons]
              have h1 := wsum_discard_addW dn wl cur w
              have h2 := fsum_discard dn wl w rest
              have hfc : frameCost dn wl ⟨w, none⟩ = 2 * arity dn w + 3 := by
                simp [frameCost, hw]
              rw [hfc]
              omega
            · rw [if_neg hk] at h
              rcases hget : net.args.get? 0 with _ | next
              · rw [hget] at h
                cases h
              · rw [hget] at h
                dsimp only at h
                by_cases hnext : next ∈ addW cur w
                · rw [if_pos hnext] at h
                  rcases hbl : buildLoop next (⟨w, some (net, 0)⟩ :: rest) with _ | l
                  · rw [hbl] at h; cases h
                  · rw [hbl] at h; cases h
                · rw [if_neg hnext] at h
                  injection h with h2
                  subst h2
                  simp only [phi_eq, List.map_cons, List.sum_cons]
                  have hfc1 : frameCost dn wl ⟨w, none⟩ = 2 * arity dn w + 3 := by
                    simp [frameCost, hw]
                  have hfc2 : frameCost dn wl ⟨w, some (net, 0)⟩ =
                      2 * (net.args.length - 0) := rfl
                  rw [hfc1, hfc2]
                  have hnc : ¬ next ∈ cur := fun hc => hnext (mem_addW.mpr (Or.inr hc))
                  by_cases hnw : next ∈ wl
                  · have hfc3 : frameCost dn wl ⟨next, none⟩ = 2 * arity dn next + 3 := by
                      simp [frameCost, hnw]
                    rw [hfc3]
                    have hext := wsum_extract dn wl cur (addW (addW cur w) next) next hnw hnc
                      (fun x hx => mem_addW.mpr (Or.inr (mem_addW.mpr (Or.inr hx))))
                      (mem_addW.mpr (Or.inl rfl))
                    omega
                  · have hfc3 : frameCost dn wl ⟨next, none⟩ = 1 := by
                      simp [frameCost, hnw]
                    rw [hfc3]
                    have hmono := wsum_mono_cur dn wl cur (addW (addW cur w) next)
                      (fun x hx => mem_addW.mpr (Or.inr (mem_addW.mpr (Or.inr hx))))
                    omega
      · rw [if_neg hw] at h
        injection h with h2
        subst h2
        simp only [phi_eq, List.map_cons, List.sum_cons]
        rw [discard_of_not_mem hw]
        rw [wsum_discard_cur_eq dn wl cur w hw]
        have hfc : frameCost dn wl ⟨w, none⟩ = 1 := by
          simp [frameCost, hw]
        rw [hfc]
        omega

/-- With fuel exceeding the measure, the search loop never runs out of fuel. -/
theorem searchLoop_total (dn : Nat → Option Net) :
    ∀ fuel s, phi dn s < fuel → searchLoop dn fuel s ≠ .fuelOut := by
  intro fuel
  induction fuel with
  | zero => intro s hs; omega
  | succ fuel ih =>
    intro s hs
    unfold searchLoop
    rcases hstep : step dn s with s' | l
    · exact ih s' (by have := step_phi_lt dn s s' hstep; omega)
    all_goals simp

/-!  The ``Shouldn't get here`` branch: wires in `current_wires` always sit on
the stack, so the loop-reconstruction scan always finds the repeated wire. -/

theorem buildLoop_some_of_mem (x : Nat) (st : List Frame)
    (h : ∃ f ∈ st, f.dst_w = x) : ∃ l, buildLoop x st = some l := by
  induction st with
  | nil => simp at h
  | cons f0 rest ih =>
    by_cases hf : f0.dst_w = x
    · exact ⟨[f0], by simp [buildLoop, hf]⟩
    · rcases h with ⟨f, hfm, hfx⟩
      rcases List.mem_cons.mp hfm with h1 | h2
      · exact absurd (h1 ▸ hfx) hf
      · rcases ih ⟨f, h2, hfx⟩ with ⟨l, hl⟩
        exact ⟨f0 :: l, by simp [buildLoop, hf, hl]⟩

theorem buildLoop_decomp (x : Nat) (st : List Frame)
    (h : ∃ f ∈ st, f.dst_w = x) :
    ∃ pre f post, st = pre ++ f :: post ∧ f.dst_w = x ∧
      (∀ g ∈ pre, ¬ g.dst_w = x) ∧ buildLoop x st = some (pre ++ [f]) := by
  induction st with
  | nil => simp at h
  | cons f0 rest ih =>
    by_cases hf : f0.dst_w = x
    · exact ⟨[], f0, rest, by simp, hf, by simp, by simp [buildLoop, hf]⟩
    · have hrest : ∃ f ∈ rest, f.dst_w = x := by
        rcases h with ⟨f, hfm, hfx⟩
        rcases List.mem_cons.mp hfm with h1 | h2
        · exact absurd (h1 ▸ hfx) hf
        · exact ⟨f, h2, hfx⟩
      rcases ih hrest with ⟨pre, f, post, heq, hfx, hpre, hbl⟩
      refine ⟨f0 :: pre, f, post, by simp [heq], hfx, ?_, ?_⟩
      · intro g hg
        rcases List.mem_cons.mp hg with h1 | h2
        · exact h1 ▸ hf
        · exact hpre g h2
      · simp [buildLoop, hf, hbl]

theorem buildLoop_ne_nil {x : Nat} {st : List Frame} {l : List Frame}
    (h : buildLoop x st = some l) : ¬ l = [] := by
  induction st generalizing l with
  | nil => simp [buildLoop] at h
  | cons f0 rest ih =>
    unfold buildLoop at h
    by_cases hf : f0.dst_w = x
    · rw [if_pos hf] at h
      injection h with h2
      subst h2
      simp
    · rw [if_neg hf] at h
      rcases hbl : buildLoop x rest with _ | l'
      · rw [hbl] at h; cases h
      · rw [hbl] at h
        injection h with h2
        subst h2
        simp

/-- The invariant behind the unreachability of the "Shouldn't get here" raise:
every wire in `current_wires` is the `dst_w` of some frame on the stack. -/
def curInv (s : SearchState) : Prop :=
  ∀ x ∈ s.current_wires, ∃ f ∈ s.stack, f.dst_w = x

theorem stepAdvance_safe (wl cur : List Nat) (rest : List Frame) (w : Nat) (net : Net)
    (k : Nat) (hcur : ∀ x ∈ cur, x = w ∨ ∃ f ∈ rest, f.dst_w = x) :
    (∀ s', stepAdvance wl cur rest w net k = .cont s' → curInv s') ∧
      ¬ stepAdvance wl cur rest w net k = .errInternal := by
  unfold stepAdvance
  by_cases hk : k = net.args.length
  · rw [if_pos hk]
    constructor
    · intro s' hs'
      injection hs' with h2
      subst h2
      intro x hx
      rcases mem_discard.mp hx with ⟨hxc, hxw⟩
      rcases hcur x hxc with h1 | ⟨f, hf, hfx⟩
      · exact absurd h1 hxw
      · exact ⟨f, hf, hfx⟩
    · intro hc
      cases hc
  · rw [if_neg hk]
    rcases hget : net.args.get? k with _ | next
    · exact ⟨(fun s' hs' => by cases hs'), (fun hc => by cases hc)⟩
    · dsimp only
      by_cases hnext : next ∈ cur
      · rw [if_pos hnext]
        have hmem : ∃ f ∈ (⟨w, some (net, k)⟩ : Frame) :: rest, f.dst_w = next := by
          rcases hcur next hnext with h1 | ⟨f, hf, hfx⟩
          · exact ⟨⟨w, some (net, k)⟩, List.mem_cons_self _ _, h1.symm⟩
          · exact ⟨f, List.mem_cons_of_mem _ hf, hfx⟩
        rcases buildLoop_some_of_mem next _ hmem with ⟨l, hl⟩
        rw [hl]
        exact ⟨(fun s' hs' => by cases hs'), (fun hc => by cases hc)⟩
      · rw [if_neg hnext]
        constructor
        · intro s' hs'
          injection hs' with h2
          subst h2
          intro x hx
          rcases mem_addW.mp hx with h1 | h2
          · exact ⟨⟨next, none⟩, List.mem_cons_self _ _, h1.symm⟩
          · rcases hcur x h2 with h3 | ⟨f, hf, hfx⟩
            · exact ⟨⟨w, some (net, k)⟩,
                List.mem_cons_of_mem _ (List.mem_cons_self _ _), h3.symm⟩
            · exact ⟨f, List.mem_cons_of_mem _ (List.mem_cons_of_mem _ hf), hfx⟩
        · intro hc
          cases hc

theorem step_safe (dn : Nat → Option Net) (s : SearchState) (hinv : curInv s) :
    (∀ s', step dn s = .cont s' → curInv s') ∧ ¬ step dn s = .errInternal := by
  rcases s with ⟨wl, cur, stack⟩
  cases stack with
  | nil => exact ⟨(fun s' hs' => by cases hs'), (fun hc => by cases hc)⟩
  | cons top rest =>
    rcases top with ⟨w, visit⟩
    have hcur : ∀ x ∈ cur, x = w ∨ ∃ f ∈ rest, f.dst_w = x := by
      intro x hx
      rcases hinv x hx with ⟨f, hf, hfx⟩
      rcases List.mem_cons.mp hf with h1 | h2
      · left; rw [← hfx, h1]
      · right; exact ⟨f, h2, hfx⟩
    cases visit with
    | some nk =>
      rcases nk with ⟨net, k⟩
      simp only [step]
      exact stepAdvance_safe wl cur rest w net (k + 1) hcur
    | none =>
      simp only [step]
      by_cases hw : w ∈ wl
      · rw [if_pos hw]
        rcases hdn : dn w with _ | net
        · exact ⟨(fun s' hs' => by cases hs'), (fun hc => by cases hc)⟩
        · dsimp only
          have hcur2 : ∀ x ∈ addW cur w, x = w ∨ ∃ f ∈ rest, f.dst_w = x := by
            intro x hx
            rcases mem_addW.mp hx with h1 | h2
            · exact Or.inl h1
            · exact hcur x h2
          by_cases hr : net.op = 'r'
          · rw [if_pos hr]
            constructor
            · intro s' hs'
              injection hs' with h2
              subst h2
              intro x hx
              rcases mem_discard.mp hx with ⟨hxc, hxw⟩
              rcases hcur2 x hxc with h1 | ⟨f, hf, hfx⟩
              · exact absurd h1 hxw
              · exact ⟨f, hf, hfx⟩
            · intro hc
              cases hc
          · rw [if_neg hr]
            exact stepAdvance_safe wl (addW cur w) rest w net 0 hcur2
      · rw [if_neg hw]
        constructor
        · intro s' hs'
          injection hs' with h2
          subst h2
          intro x hx
          rcases mem_discard.mp hx with ⟨hxc, hxw⟩
          rcases hcur x hxc with h1 | ⟨f, hf, hfx⟩
          · exact absurd h1 hxw
          · exact ⟨f, hf, hfx⟩
        · intro hc
          cases hc

theorem searchLoop_no_internal (dn : Nat → Option Net) :
    ∀ fuel s, curInv s → ¬ searchLoop dn fuel s = .errInternal := by
  intro fuel
  induction fuel with
  | zero => intro s _ hc; cases hc
  | succ fuel ih =>
    intro s hinv
    unfold searchLoop
    rcases hstep : step dn s with s' | l
    · exact ih s' ((step_safe dn s hinv).1 s' hstep)
    · intro hc; cases hc
    · intro hc; cases hc
    · exact absurd hstep (step_safe dn s hinv).2
    · intro hc; cases hc
    · intro hc; cases hc

/-!  Success of the search when every surviving wire lies on live logic:
after the pruning fixed point, every wire of `wires_left` has a non-register
producing net with some argument back in `wires_left`.  Under that condition the
search can only terminate by reporting a loop. -/

/-- Every wire of `W` has a non-register producing net with an argument in `W`. -/
def GoodW (dn : Nat → Option Net) (W : List Nat) : Prop :=
  ∀ w ∈ W, ∃ net, dn w = some net ∧ ¬ net.op = 'r' ∧ ∃ a ∈ net.args, a ∈ W

/-- All argument edges of `net` strictly before index `k` lead outside `W`. -/
def frameDead (W : List Nat) (net : Net) (k : Nat) : Prop :=
  ∀ j, j < k → ∀ a, net.args.get? j = some a → ¬ a ∈ W

/-- Shape of the stack below the top frame: each frame is active, live, its
current argument edge points at the frame above it, and all earlier argument
edges were dead ends. -/
def belowOK (W : List Nat) (dn : Nat → Option Net) : Nat → List Frame → Prop
  | _, [] => True
  | childW, f :: rest =>
    ∃ net k, f.visit = some (net, k) ∧ f.dst_w ∈ W ∧ dn f.dst_w = some net ∧
      k < net.args.length ∧ net.args.get? k = some childW ∧ frameDead W net k ∧
      belowOK W dn f.dst_w rest

/-- Constraint on the top frame: if already visited, it is live and all argument
edges up to and including the current one were dead ends. -/
def topOK (W : List Nat) (dn : Nat → Option Net) (f : Frame) : Prop :=
  match f.visit with
  | none => True
  | some (net, k) => f.dst_w ∈ W ∧ dn f.dst_w = some net ∧ k < net.args.length ∧
      frameDead W net (k + 1)

/-- Full stack invariant: nonempty, well shaped, and a dead fresh top frame has
a parent to fall back to. -/
def stackOK (W : List Nat) (dn : Nat → Option Net) : List Frame → Prop
  | [] => False
  | top :: rest => topOK W dn top ∧ belowOK W dn top.dst_w rest ∧
      (top.visit = none → ¬ top.dst_w ∈ W → ¬ rest = [])

/-- Reachability invariant of the search when started after a nontrivial
pruning fixed point. -/
def Jinv (W : List Nat) (dn : Nat → Option Net) (s : SearchState) : Prop :=
  s.wires_left = W ∧ stackOK W dn s.stack ∧ curInv s

theorem step_good (W : List Nat) (dn : Nat → Option Net) (hW : GoodW dn W)
    (s : SearchState) (hJ : Jinv W dn s) :
    (∃ s', step dn s = .cont s' ∧ Jinv W dn s') ∨
      (∃ l, step dn s = .found l ∧ ¬ l = []) := by
  obtain ⟨hwl, hst, hcv⟩ := hJ
  rcases s with ⟨wl, cur, stack⟩
  simp only at hwl
  subst hwl
  cases stack with
  | nil => exact absurd hst (by simp [stackOK])
  | cons top rest =>
    rcases top with ⟨w, visit⟩
    obtain ⟨htop, hbelow, hdeadtop⟩ := hst
    cases visit with
    | none =>
      by_cases hw : w ∈ wl
      · -- live fresh frame: resolve the net and process argument 0
        rcases hW w hw with ⟨net, hdn, hr, a, ha, haW⟩
        have hlen : 0 < net.args.length := List.length_pos.mpr (by
          intro hnil
          rw [hnil] at ha
          cases ha)
        have hstep1 : step dn ⟨wl, cur, ⟨w, none⟩ :: rest⟩ =
            stepAdvance wl (addW cur w) rest w net 0 := by
          simp only [step, hw, if_pos, hdn]
          rw [if_neg hr]
        rcases hget : net.args.get? 0 with _ | next
        · exact absurd (List.get?_eq_none.mp hget) (by omega)
        · have hstep2 : step dn ⟨wl, cur, ⟨w, none⟩ :: rest⟩ =
              if next ∈ addW cur w then
                match buildLoop next (⟨w, some (net, 0)⟩ :: rest) with
                | some l => StepRes.found l
                | none => StepRes.errInternal
              else
                .cont ⟨wl, addW (addW cur w) next,
                       ⟨next, none⟩ :: ⟨w, some (net, 0)⟩ :: rest⟩ := by
            rw [hstep1]
            unfold stepAdvance
            rw [if_neg (by omega : ¬ 0 = net.args.length), hget]
          by_cases hnext : next ∈ addW cur w
          · right
            have hmem : ∃ f ∈ (⟨w, some (net, 0)⟩ : Frame) :: rest, f.dst_w = next := by
              rcases mem_addW.mp hnext with h1 | h2
              · exact ⟨⟨w, some (net, 0)⟩, List.mem_cons_self _ _, h1.symm⟩
              · rcases hcv next h2 with ⟨f, hf, hfx⟩
                rcases List.mem_cons.mp hf with h3 | h4
                · exact ⟨⟨w, some (net, 0)⟩, List.mem_cons_self _ _, by
                    rw [← hfx, h3]⟩
                · exact ⟨f, List.mem_cons_of_mem _ h4, hfx⟩
            rcases buildLoop_some_of_mem next _ hmem with ⟨l, hl⟩
            refine ⟨l, ?_, buildLoop_ne_nil hl⟩
            rw [hstep2, if_pos hnext, hl]
          · left
            refine ⟨⟨wl, addW (addW cur w) next,
              ⟨next, none⟩ :: ⟨w, some (net, 0)⟩ :: rest⟩, ?_, ?_⟩
            · rw [hstep2, if_neg hnext]
            · refine ⟨rfl, ⟨trivial, ?_, ?_⟩, ?_⟩
              · exact ⟨net, 0, rfl, hw, hdn, hlen, hget, fun j hj => by omega, hbelow⟩
              · intro _ _
                simp
              · have := step_safe dn ⟨wl, cur, ⟨w, none⟩ :: rest⟩ hcv
                exact this.1 _ (by rw [hstep2, if_neg hnext])
      · -- dead fresh frame: pop back to the parent
        have hrest : ¬ rest = [] := hdeadtop rfl hw
        have hstep1 : step dn ⟨wl, cur, ⟨w, none⟩ :: rest⟩ =
            .cont ⟨discardW wl w, discardW cur w, rest⟩ := by
          simp only [step]
          rw [if_neg hw]
        left
        refine ⟨⟨discardW wl w, discardW cur w, rest⟩, hstep1, ?_, ?_, ?_⟩
        · simp only
          exact discard_of_not_mem hw
        · cases rest with
          | nil => exact absurd rfl hrest
          | cons f rest' =>
            obtain ⟨net, k, hfv, hfW, hfdn, hklen, hkget, hdead, hbel⟩ := hbelow
            have hrw : discardW wl w = wl := discard_of_not_mem hw
            simp only [stackOK, hrw]
            refine ⟨?_, ?_, ?_⟩
            · rcases f with ⟨fw, fv⟩
              simp only at hfv
              subst hfv
              refine ⟨hfW, hfdn, hklen, ?_⟩
              intro j hj a hja haW2
              by_cases hjk : j < k
              · exact hdead j hjk a hja haW2
              · have : j = k := by omega
                subst this
                rw [hkget] at hja
                injection hja with hja2
                have hja3 : w = a := hja2
                exact hw (hja3 ▸ haW2)
            · exact hbel
            · intro hfv2 _
              rw [hfv2] at hfv
              cases hfv
        · exact (step_safe dn ⟨wl, cur, ⟨w, none⟩ :: rest⟩ hcv).1 _ hstep1
    | some nk =>
      rcases nk with ⟨net, k⟩
      obtain ⟨hwW, hdn, hklen, hdead⟩ := htop
      have hstep1 : step dn ⟨wl, cur, ⟨w, some (net, k)⟩ :: rest⟩ =
          stepAdvance wl cur rest w net (k + 1) := by
        simp only [step]
      -- the current frame cannot have exhausted its arguments
      have hne : ¬ k + 1 = net.args.length := by
        intro hk
        rcases hW w hwW with ⟨net2, hdn2, _, a, ha, haW⟩
        rw [hdn] at hdn2
        injection hdn2 with hdn3
        subst hdn3
        rcases List.get?_of_mem ha with ⟨j, hj⟩
        have hjlt : j < net.args.length := by
          by_contra hc
          rw [List.get?_eq_none.mpr (Nat.le_of_not_lt hc)] at hj
          cases hj
        exact hdead j (by omega) a hj haW
      rcases hget : net.args.get? (k + 1) with _ | next
      · exact absurd hget (by
          simp [List.get?_eq_none]
          omega)
      · have hlt : k + 1 < net.args.length := by
          by_contra hc
          rw [List.get?_eq_none.mpr (Nat.le_of_not_lt hc)] at hget
          cases hget
        have hstep2 : step dn ⟨wl, cur, ⟨w, some (net, k)⟩ :: rest⟩ =
            if next ∈ cur then
              match buildLoop next (⟨w, some (net, k + 1)⟩ :: rest) with
              | some l => StepRes.found l
              | none => StepRes.errInternal
            else
              .cont ⟨wl, addW cur next,
                     ⟨next, none⟩ :: ⟨w, some (net, k + 1)⟩ :: rest⟩ := by
          rw [hstep1]
          unfold stepAdvance
          rw [if_neg hne, hget]
        by_cases hnext : next ∈ cur
        · right
          have hmem : ∃ f ∈ (⟨w, some (net, k + 1)⟩ : Frame) :: rest, f.dst_w = next := by
            rcases hcv next hnext with ⟨f, hf, hfx⟩
            rcases List.mem_cons.mp hf with h3 | h4
            · exact ⟨⟨w, some (net, k + 1)⟩, List.mem_cons_self _ _, by rw [← hfx, h3]⟩
            · exact ⟨f, List.mem_cons_of_mem _ h4, hfx⟩
          rcases buildLoop_some_of_mem next _ hmem with ⟨l, hl⟩
          refine ⟨l, ?_, buildLoop_ne_nil hl⟩
          rw [hstep2, if_pos hnext, hl]
        · left
          refine ⟨⟨wl, addW cur next, ⟨next, none⟩ :: ⟨w, some (net, k + 1)⟩ :: rest⟩,
            ?_, ?_⟩
          · rw [hstep2, if_neg hnext]
          · refine ⟨rfl, ⟨trivial, ?_, ?_⟩, ?_⟩
            · exact ⟨net, k + 1, rfl, hwW, hdn, hlt, hget, hdead, hbelow⟩
            · intro _ _
              simp
            · exact (step_safe dn ⟨wl, cur, ⟨w, some (net, k)⟩ :: rest⟩ hcv).1 _
                (by rw [hstep2, if_neg hnext])

theorem searchLoop_finds (W : List Nat) (dn : Nat → Option Net) (hW : GoodW dn W) :
    ∀ fuel s, Jinv W dn s → phi dn s < fuel →
      ∃ l, searchLoop dn fuel s = .loop l ∧ ¬ l = [] := by
  intro fuel
  induction fuel with
  | zero => intro s _ hlt; omega
  | succ fuel ih =>
    intro s hJ hlt
    rcases step_good W dn hW s hJ with ⟨s', hstep, hJ'⟩ | ⟨l, hstep, hne⟩
    · have hphi := step_phi_lt dn s s' hstep
      rcases ih s' hJ' (by omega) with ⟨l, hl, hlne⟩
      refine ⟨l, ?_, hlne⟩
      unfold searchLoop
      rw [hstep]
      exact hl
    · refine ⟨l, ?_, hne⟩
      unfold searchLoop
      rw [hstep]

/-!  From the pruning fixed point to the search precondition. -/

theorem dest_nets_foldl_aux (w : Nat) (ll : List Net) :
    ∀ (acc : Option Net) (m : Net),
      ll.foldl (fun acc n => if w ∈ n.dests then some n else acc) acc = some m →
      acc = some m ∨ (m ∈ ll ∧ w ∈ m.dests) := by
  induction ll with
  | nil =>
    intro acc m hm
    exact Or.inl hm
  | cons x rest ih =>
    intro acc m hm
    simp only [List.foldl_cons] at hm
    rcases ih _ m hm with h1 | h2
    · by_cases hw : w ∈ x.dests
      · rw [if_pos hw] at h1
        injection h1 with h1b
        subst h1b
        exact Or.inr ⟨List.mem_cons_self _ _, hw⟩
      · rw [if_neg hw] at h1
        exact Or.inl h1
    · exact Or.inr ⟨List.mem_cons_of_mem _ h2.1, h2.2⟩

theorem dest_nets_mem (ll : List Net) (w : Nat) (n : Net)
    (h : dest_nets ll w = some n) : n ∈ ll ∧ w ∈ n.dests := by
  unfold dest_nets at h
  rcases dest_nets_foldl_aux w ll none n h with h1 | h2
  · cases h1
  · exact h2

theorem dest_nets_isSome (ll : List Net) (w : Nat)
    (h : ∃ n ∈ ll, w ∈ n.dests) : ∃ n, dest_nets ll w = some n := by
  unfold dest_nets
  suffices haux : ∀ acc : Option Net, (∃ n ∈ ll, w ∈ n.dests) ∨ (∃ n, acc = some n) →
      ∃ n, ll.foldl (fun acc n => if w ∈ n.dests then some n else acc) acc = some n by
    exact haux none (Or.inl h)
  clear h
  induction ll with
  | nil =>
    intro acc hacc
    rcases hacc with ⟨n, hn, _⟩ | h2
    · cases hn
    · exact h2
  | cons x rest ih =>
    intro acc hacc
    simp only [List.foldl_cons]
    apply ih
    rcases hacc with ⟨n, hn, hw⟩ | ⟨n, hacc2⟩
    · rcases List.mem_cons.mp hn with h1 | h2
      · subst h1
        right
        exact ⟨n, by rw [if_pos hw]⟩
      · exact Or.inl ⟨n, h2, hw⟩
    · subst hacc2
      by_cases hw : w ∈ x.dests
      · exact Or.inr ⟨x, by rw [if_pos hw]⟩
      · exact Or.inr ⟨n, by rw [if_neg hw]⟩

/-- Drivers of surviving wires survive a pruning pass. -/
theorem prunePass_driver (ll : List Net) (wl : List Nat) :
    ∀ w ∈ (prunePass ll wl).1, ∀ n ∈ ll, w ∈ n.dests → n ∈ (prunePass ll wl).2 := by
  induction ll generalizing wl with
  | nil =>
    intro w _ n hn
    cases hn
  | cons m rest ih =>
    intro w hw n hn hwd
    by_cases hk : m.args.any (fun a => a ∈ wl)
    · have hunf1 : (prunePass (m :: rest) wl).1 = (prunePass rest wl).1 := by
        simp only [prunePass, hk, if_pos]
      have hunf2 : (prunePass (m :: rest) wl).2 = m :: (prunePass rest wl).2 := by
        simp only [prunePass, hk, if_pos]
      rw [hunf1] at hw
      rw [hunf2]
      rcases List.mem_cons.mp hn with h1 | h2
      · exact List.mem_cons.mpr (Or.inl h1)
      · exact List.mem_cons.mpr (Or.inr (ih wl w hw n h2 hwd))
    · have hunf : prunePass (m :: rest) wl =
          prunePass rest (wl.filter (fun v => ¬ v ∈ m.dests)) := by
        simp only [prunePass, hk, if_neg, Bool.false_eq_true, not_false_iff]
      rw [hunf] at hw ⊢
      rcases List.mem_cons.mp hn with h1 | h2
      · exfalso
        have hw2 := prunePass_wl_subset _ _ w hw
        have := List.mem_filter.mp hw2
        subst h1
        simp only [decide_eq_true_eq] at this
        exact this.2 hwd
      · exact ih _ w hw n h2 hwd

/-- Drivers of surviving wires survive the whole pruning fixed point. -/
theorem pruneLoop_driver (wl : List Nat) (ll : List Net)
    (hdrv : ∀ w ∈ wl, ∃ n ∈ ll, w ∈ n.dests) :
    ∀ w ∈ (pruneLoop wl ll).1, ∃ n ∈ (pruneLoop wl ll).2, w ∈ n.dests := by
  have := pruneLoop_inv (fun wl' ll' => ∀ w ∈ wl', ∃ n ∈ ll', w ∈ n.dests)
    (fun wl' ll' hP w hw => by
      have hw0 := prunePass_wl_subset ll' wl' w hw
      rcases hP w hw0 with ⟨n, hn, hwd⟩
      exact ⟨n, prunePass_driver ll' wl' w hw n hn hwd, hwd⟩) ll wl hdrv
  exact this

/-- Identity of wires: distinct wire records carry distinct ids. -/
theorem wire_id_inj (b : Block) (hnd : (b.wires.map Wire.wid).Nodup)
    (v v' : Wire) (hv : v ∈ b.wires) (hv' : v' ∈ b.wires) (h : v.wid = v'.wid) :
    v = v' :=
  List.inj_on_of_nodup_map hnd hv hv' h

theorem mem_regularWires (b : Block) (w : Nat) :
    w ∈ regularWires b ↔ ∃ v ∈ b.wires, v.wid = w ∧ v.kind = WKind.regular := by
  unfold regularWires
  simp only [List.mem_map, List.mem_filter, decide_eq_true_eq]
  constructor
  · rintro ⟨v, ⟨hv, hk⟩, hw⟩
    exact ⟨v, hv, hw, hk⟩
  · rintro ⟨v, hv, hw, hk⟩
    exact ⟨v, ⟨hv, hk⟩, hw⟩

/-- After pruning a well-formed block, the surviving wires satisfy the search
precondition with respect to the surviving nets. -/
theorem goodW_of_wf (b : Block) (hwf : WellFormed b) :
    GoodW (dest_nets (pruneLoop (regularWires b) b.nets).2)
      (pruneLoop (regularWires b) b.nets).1 := by
  obtain ⟨hnd, hdest, _, hdrv, _⟩ := hwf
  set W := (pruneLoop (regularWires b) b.nets).1 with hWdef
  set L := (pruneLoop (regularWires b) b.nets).2 with hLdef
  intro w hw
  have hreg : w ∈ regularWires b := pruneLoop_wl_subset _ _ w hw
  have hdrv0 : ∀ v ∈ regularWires b, ∃ n ∈ b.nets, v ∈ n.dests := by
    intro v hv
    rcases (mem_regularWires b v).mp hv with ⟨x, hx, hxw, hxk⟩
    rcases hdrv x hx hxk with ⟨n, hn, hnd2⟩
    exact ⟨n, hn, hxw ▸ hnd2⟩
  have hdrvW : ∃ n ∈ L, w ∈ n.dests := pruneLoop_driver _ _ hdrv0 w hw
  rcases dest_nets_isSome L w hdrvW with ⟨net, hdn⟩
  rcases dest_nets_mem L w net hdn with ⟨hnetL, hwd⟩
  have hnetb : net ∈ b.nets := pruneLoop_ll_subset _ _ net hnetL
  have hnr : ¬ net.op = 'r' := by
    intro hr
    rcases hdest net hnetb w hwd with ⟨v, hv, hvw, hvk, _⟩
    rcases (mem_regularWires b w).mp hreg with ⟨v', hv', hvw', hvk'⟩
    have : v = v' := wire_id_inj b hnd v v' hv hv' (by rw [hvw, hvw'])
    rw [this, hvk'] at hvk
    cases hvk hr
  rcases pruneLoop_live _ _ net hnetL with ⟨a, ha, haW⟩
  exact ⟨net, hdn, hnr, a, ha, haW⟩

theorem getD_map_range (k idx : Nat) (F : Nat → Net) (hidx : idx < k) :
    ((List.range k).map F).getD idx dNet = F idx := by
  rw [List.getD_eq_get?]
  rw [List.get?_map]
  rw [List.get?_range hidx]
  rfl

/-- If after pruning some wire survives, the block contains a register-free cycle. -/
theorem cycle_of_goodW (b : Block) (W : List Nat) (L : List Net)
    (hLs : ∀ n ∈ L, n ∈ b.nets)
    (hG : GoodW (dest_nets L) W)
    (w0 : Nat) (hw0 : w0 ∈ W) :
    ∃ c, isCombCycle b c := by
  set dn := dest_nets L with hdndef
  have hsucc : ∀ w, w ∈ W → ∃ a, a ∈ W ∧ ∃ net, dn w = some net ∧ a ∈ net.args := by
    intro w hw
    rcases hG w hw with ⟨net, hdn, _, a, ha, haW⟩
    exact ⟨a, haW, net, hdn, ha⟩
  have hsucc2 : ∀ w : Nat, ∃ a, w ∈ W →
      (a ∈ W ∧ ∃ net, dn w = some net ∧ a ∈ net.args) := by
    intro w
    by_cases h : w ∈ W
    · exact ⟨(hsucc w h).choose, fun _ => (hsucc w h).choose_spec⟩
    · exact ⟨0, fun hw => absurd hw h⟩
  let g : Nat → Nat := fun i => Nat.rec w0 (fun _ prev => (hsucc2 prev).choose) i
  have hgW : ∀ i, g i ∈ W := by
    intro i
    induction i with
    | zero => exact hw0
    | succ i ih =>
      show (hsucc2 (g i)).choose ∈ W
      exact ((hsucc2 (g i)).choose_spec ih).1
  have hgsucc : ∀ i, ∃ net, dn (g i) = some net ∧ g (i + 1) ∈ net.args := by
    intro i
    exact ((hsucc2 (g i)).choose_spec (hgW i)).2
  let f : Nat → Net := fun t => (dn (g t)).getD dNet
  have hfdn : ∀ t, dn (g t) = some (f t) := by
    intro t
    rcases hG (g t) (hgW t) with ⟨net, hdn, _, _⟩
    show dn (g t) = some ((dn (g t)).getD dNet)
    rw [hdn]
    rfl
  have hconn : ∀ t, connected (f (t + 1)) (f t) := by
    intro t
    rcases hgsucc t with ⟨net, hdn, harg⟩
    have hnet : net = f t := by
      have := hfdn t
      rw [hdn] at this
      injection this
    rcases dest_nets_mem L (g (t + 1)) (f (t + 1)) (hfdn (t + 1)) with ⟨_, hdests⟩
    exact ⟨g (t + 1), hdests, hnet ▸ harg⟩
  have hfb : ∀ t, f t ∈ b.nets ∧ ¬ (f t).op = 'r' := by
    intro t
    rcases hG (g t) (hgW t) with ⟨net, hdn, hnr, _⟩
    have hnet : net = f t := by
      have := hfdn t
      rw [hdn] at this
      injection this
    rcases dest_nets_mem L (g t) (f t) (hfdn t) with ⟨hmem, _⟩
    exact ⟨hLs _ hmem, hnet ▸ hnr⟩
  -- pigeonhole: the walk revisits a wire
  obtain ⟨i, _, j, _, hij, hgij⟩ :=
    Finset.exists_ne_map_eq_of_card_lt_of_maps_to
      (s := Finset.range (W.toFinset.card + 1)) (t := W.toFinset)
      (by
        rw [Finset.card_range]
        omega)
      (fun i _ => List.mem_toFinset.mpr (hgW i))
  have hlt : ∃ i' j', i' < j' ∧ g i' = g j' := by
    rcases Nat.lt_or_ge i j with h1 | h2
    · exact ⟨i, j, h1, hgij⟩
    · rcases Nat.lt_or_ge j i with h3 | h4
      · exact ⟨j, i, h3, hgij.symm⟩
      · omega
  clear hij hgij
  obtain ⟨i, j, hij, hgij⟩ := hlt
  refine ⟨(List.range (j - i)).map (fun t => f (j - 1 - t)), ?_, ?_, ?_⟩
  · simp only [ne_eq, List.map_eq_nil, List.range_eq_nil]
    omega
  · intro n hn
    rcases List.mem_map.mp hn with ⟨t, _, hft⟩
    exact hft ▸ hfb (j - 1 - t)
  · intro idx hidx
    simp only [List.length_map, List.length_range] at hidx
    have hlen : ((List.range (j - i)).map (fun t => f (j - 1 - t))).length = j - i := by
      simp
    rw [hlen]
    rw [getD_map_range _ _ _ hidx]
    by_cases hlast : idx + 1 < j - i
    · rw [Nat.mod_eq_of_lt hlast]
      rw [getD_map_range _ _ _ hlast]
      have harith : j - 1 - idx = (j - 1 - (idx + 1)) + 1 := by omega
      rw [harith]
      exact hconn _
    · have hidx2 : idx + 1 = j - i := by omega
      rw [hidx2, Nat.mod_self]
      rw [getD_map_range _ _ _ (by omega)]
      have harith1 : j - 1 - idx = i := by omega
      have harith2 : j - 1 - 0 = j - 1 := by omega
      rw [harith1, harith2]
      have hfij : f i = f j := by
        show (dn (g i)).getD dNet = (dn (g j)).getD dNet
        rw [hgij]
      rw [hfij]
      have harith3 : j = (j - 1) + 1 := by omega
      rw [harith3]
      exact hconn (j - 1)

/-!  A combinational cycle survives every pruning pass. -/

/-- One pruning pass keeps a self-sustaining net set and its wires: every net of
`S` has an argument in `WS`, and within `ll` only nets of `S` drive `WS` wires. -/
theorem prunePass_sustain (ll : List Net) (wl : List Nat) (S : List Net) (WS : List Nat)
    (hS1 : ∀ n ∈ S, ∃ a ∈ n.args, a ∈ WS)
    (hS2 : ∀ w ∈ WS, ∀ n ∈ ll, w ∈ n.dests → n ∈ S)
    (hWS : ∀ w ∈ WS, w ∈ wl) :
    (∀ w ∈ WS, w ∈ (prunePass ll wl).1) ∧
      (∀ n ∈ S, n ∈ ll → n ∈ (prunePass ll wl).2) := by
  induction ll generalizing wl with
  | nil =>
    refine ⟨?_, ?_⟩
    · intro w hw
      exact hWS w hw
    · intro n _ hn
      cases hn
  | cons m rest ih =>
    by_cases hk : m.args.any (fun a => a ∈ wl)
    · have hunf1 : (prunePass (m :: rest) wl).1 = (prunePass rest wl).1 := by
        simp only [prunePass, hk, if_pos]
      have hunf2 : (prunePass (m :: rest) wl).2 = m :: (prunePass rest wl).2 := by
        simp only [prunePass, hk, if_pos]
      have hS2' : ∀ w ∈ WS, ∀ n ∈ rest, w ∈ n.dests → n ∈ S := by
        intro w hw n hn
        exact hS2 w hw n (List.mem_cons_of_mem _ hn)
      rcases ih wl hS2' hWS with ⟨ih1, ih2⟩
      refine ⟨?_, ?_⟩
      · intro w hw
        rw [hunf1]
        exact ih1 w hw
      · intro n hnS hnll
        rw [hunf2]
        rcases List.mem_cons.mp hnll with h1 | h2
        · exact List.mem_cons.mpr (Or.inl h1)
        · exact List.mem_cons.mpr (Or.inr (ih2 n hnS h2))
    · -- the head net is removed: it cannot belong to `S`
      have hmS : ¬ m ∈ S := by
        intro hmS
        rcases hS1 m hmS with ⟨a, ha, haWS⟩
        have := hWS a haWS
        exact hk (List.any_eq_true.mpr ⟨a, ha, decide_eq_true this⟩)
      have hunf : prunePass (m :: rest) wl =
          prunePass rest (wl.filter (fun v => ¬ v ∈ m.dests)) := by
        simp only [prunePass, hk, if_neg, Bool.false_eq_true, not_false_iff]
      have hWS' : ∀ w ∈ WS, w ∈ wl.filter (fun v => ¬ v ∈ m.dests) := by
        intro w hw
        apply List.mem_filter.mpr
        refine ⟨hWS w hw, ?_⟩
        simp only [decide_eq_true_eq]
        intro hwd
        exact hmS (hS2 w hw m (List.mem_cons_self _ _) hwd)
      have hS2' : ∀ w ∈ WS, ∀ n ∈ rest, w ∈ n.dests → n ∈ S := by
        intro w hw n hn
        exact hS2 w hw n (List.mem_cons_of_mem _ hn)
      rcases ih _ hS2' hWS' with ⟨ih1, ih2⟩
      refine ⟨?_, ?_⟩
      · intro w hw
        rw [hunf]
        exact ih1 w hw
      · intro n hnS hnll
        rw [hunf]
        rcases List.mem_cons.mp hnll with h1 | h2
        · exact absurd (h1 ▸ hnS) hmS
        · exact ih2 n hnS h2

/-- The whole pruning fixed point keeps a self-sustaining net set. -/
theorem pruneLoop_sustain (wl0 : List Nat) (ll0 : List Net) (S : List Net) (WS : List Nat)
    (hS1 : ∀ n ∈ S, ∃ a ∈ n.args, a ∈ WS)
    (hS2 : ∀ w ∈ WS, ∀ n ∈ ll0, w ∈ n.dests → n ∈ S)
    (hWS : ∀ w ∈ WS, w ∈ wl0) (hS : ∀ n ∈ S, n ∈ ll0) :
    (∀ w ∈ WS, w ∈ (pruneLoop wl0 ll0).1) ∧
      (∀ n ∈ S, n ∈ (pruneLoop wl0 ll0).2) := by
  have := pruneLoop_inv
    (fun wl ll => (∀ w ∈ WS, w ∈ wl) ∧ (∀ n ∈ S, n ∈ ll) ∧ (∀ n ∈ ll, n ∈ ll0))
    (fun wl ll hP => by
      obtain ⟨hP1, hP2, hP3⟩ := hP
      have hS2ll : ∀ w ∈ WS, ∀ n ∈ ll, w ∈ n.dests → n ∈ S := by
        intro w hw n hn
        exact hS2 w hw n (hP3 n hn)
      rcases prunePass_sustain ll wl S WS hS1 hS2ll hP1 with ⟨h1, h2⟩
      refine ⟨h1, ?_, ?_⟩
      · intro n hn
        exact h2 n hn (hP2 n hn)
      · intro n hn
        exact hP3 n (prunePass_ll_subset ll wl n hn))
    ll0 wl0 ⟨hWS, hS, fun n hn => hn⟩
  exact ⟨this.1, this.2.1⟩

theorem getD_eq_get_net (l : List Net) (i : Nat) (h : i < l.length) :
    l.getD i dNet = l.get ⟨i, h⟩ := by
  rw [List.getD_eq_get?, List.get?_eq_get h]
  rfl

theorem getD_mem_net (l : List Net) (i : Nat) (h : i < l.length) :
    l.getD i dNet ∈ l := by
  rw [getD_eq_get_net l i h]
  exact List.get_mem l i h

/-- A register-free cycle keeps the pruning fixed point nonempty. -/
theorem cycle_survives (b : Block) (hwf : WellFormed b) (c : List Net)
    (hc : isCombCycle b c) :
    (∀ n ∈ c, n ∈ (pruneLoop (regularWires b) b.nets).2) ∧
      ¬ (pruneLoop (regularWires b) b.nets).2 = [] := by
  obtain ⟨hnd, hdest, harg, _, huniq⟩ := hwf
  obtain ⟨hne, hmem, hidx⟩ := hc
  have hlen : 0 < c.length := List.length_pos.mpr hne
  have hwit : ∀ i, ∃ w, i < c.length →
      (w ∈ (c.getD i dNet).dests ∧ w ∈ (c.getD ((i + 1) % c.length) dNet).args) := by
    intro i
    by_cases h : i < c.length
    · rcases hidx i h with ⟨w, hw1, hw2⟩
      exact ⟨w, fun _ => ⟨hw1, hw2⟩⟩
    · exact ⟨0, fun hi => absurd hi h⟩
  set WS := (List.range c.length).map (fun i => (hwit i).choose) with hWSdef
  have hS1 : ∀ n ∈ c, ∃ a ∈ n.args, a ∈ WS := by
    intro n hn
    rcases List.mem_iff_get.mp hn with ⟨⟨t, ht⟩, hget⟩
    have hi : (t + c.length - 1) % c.length < c.length := Nat.mod_lt _ hlen
    have harith : ((t + c.length - 1) % c.length + 1) % c.length = t := by
      rw [Nat.mod_add_mod]
      have h1 : t + c.length - 1 + 1 = t + c.length := by omega
      rw [h1, Nat.add_mod_right]
      exact Nat.mod_eq_of_lt ht
    have hspec := (hwit ((t + c.length - 1) % c.length)).choose_spec hi
    refine ⟨(hwit ((t + c.length - 1) % c.length)).choose, ?_, ?_⟩
    · have hnets : c.getD (((t + c.length - 1) % c.length + 1) % c.length) dNet = n := by
        rw [harith]
        rw [getD_eq_get_net c t ht]
        exact hget
      exact hnets ▸ hspec.2
    · exact List.mem_map.mpr ⟨_, List.mem_range.mpr hi, rfl⟩
  have hS2 : ∀ w ∈ WS, ∀ n ∈ b.nets, w ∈ n.dests → n ∈ c := by
    intro w hw n hn hwd
    rcases List.mem_map.mp hw with ⟨i, hi, hiw⟩
    have hi' := List.mem_range.mp hi
    have hspec := (hwit i).choose_spec hi'
    have hci : c.getD i dNet ∈ c := getD_mem_net c i hi'
    have : n = c.getD i dNet :=
      huniq n hn (c.getD i dNet) ((hmem _ hci).1) w hwd (hiw ▸ hspec.1)
    exact this ▸ hci
  have hWS : ∀ w ∈ WS, w ∈ regularWires b := by
    intro w hw
    rcases List.mem_map.mp hw with ⟨i, hi, hiw⟩
    have hi' := List.mem_range.mp hi
    have hspec := (hwit i).choose_spec hi'
    have hci : c.getD i dNet ∈ c := getD_mem_net c i hi'
    have hci2 : c.getD ((i + 1) % c.length) dNet ∈ c :=
      getD_mem_net c _ (Nat.mod_lt _ hlen)
    rcases hdest (c.getD i dNet) ((hmem _ hci).1) w (hiw ▸ hspec.1) with
      ⟨v, hv, hvw, _, hvk2⟩
    rcases harg (c.getD ((i + 1) % c.length) dNet) ((hmem _ hci2).1) w
      (hiw ▸ hspec.2) with ⟨v', hv', hvw', hvk'⟩
    have hvv : v = v' := wire_id_inj b hnd v v' hv hv' (by rw [hvw, hvw'])
    rcases hvk2 ((hmem _ hci).2) with hk | hk
    · exact (mem_regularWires b w).mpr ⟨v, hv, hvw, hk⟩
    · exact absurd (hvv ▸ hk) (hvv ▸ hvk')
  have hSn : ∀ n ∈ c, n ∈ b.nets := fun n hn => (hmem n hn).1
  rcases pruneLoop_sustain (regularWires b) b.nets c WS hS1 hS2 hWS hSn with ⟨_, h2⟩
  refine ⟨h2, ?_⟩
  intro hnil
  cases c with
  | nil => exact hne rfl
  | cons n0 rest =>
    have := h2 n0 (List.mem_cons_self _ _)
    rw [hnil] at this
    cases this

/-- Nets of the frames of a returned loop (`fs.net` of each `_FilteringState`). -/
def loopNets (l : List Frame) : List Net :=
  l.filterMap (fun f => f.visit.map Prod.fst)

/-- Two gates feeding each other: a single combinational 2-cycle. -/
def ex2N1 : Net := ⟨'&', [1], [0]⟩

def ex2N2 : Net := ⟨'|', [0], [1]⟩

def cycB : Block := ⟨[⟨0, WKind.regular⟩, ⟨1, WKind.regular⟩], [ex2N1, ex2N2]⟩

/-- Two disjoint combinational 2-cycles. -/
def ex4N3 : Net := ⟨'&', [3], [2]⟩

def ex4N4 : Net := ⟨'&', [2], [3]⟩

def twoCycB : Block :=
  ⟨[⟨0, WKind.regular⟩, ⟨1, WKind.regular⟩, ⟨2, WKind.regular⟩, ⟨3, WKind.regular⟩],
   [ex2N1, ex2N2, ex4N3, ex4N4]⟩

/-- A chain from a primary input to a primary output: acyclic. -/
def acycB : Block := ⟨[⟨0, WKind.input⟩, ⟨1, WKind.output⟩], [⟨'&', [0], [1]⟩]⟩

/-- The same feedback shape as `cycB` but routed through a register. -/
def regB : Block :=
  ⟨[⟨0, WKind.register⟩, ⟨1, WKind.regular⟩], [⟨'r', [1], [0]⟩, ⟨'&', [0], [1]⟩]⟩

theorem find_loop_of_nil (b : Block) (start : Nat)
    (h : (pruneLoop (regularWires b) b.nets).2 = []) :
    find_loop b start = .noLoop := by
  unfold find_loop check_for_loop
  have hlen : (pruneLoop (regularWires b) b.nets).2.length = 0 := by simp [h]
  simp only [hlen, if_pos]

theorem find_loop_of_ne_nil (b : Block) (start : Nat)
    (h : ¬ (pruneLoop (regularWires b) b.nets).2 = []) :
    find_loop b start =
      searchLoop (dest_nets (pruneLoop (regularWires b) b.nets).2)
        (phi (dest_nets (pruneLoop (regularWires b) b.nets).2)
          (initState start (pruneLoop (regularWires b) b.nets).1) + 1)
        (initState start (pruneLoop (regularWires b) b.nets).1) := by
  unfold find_loop check_for_loop
  have hlen : ¬ (pruneLoop (regularWires b) b.nets).2.length = 0 := by
    simpa [List.length_eq_zero] using h
  simp only [hlen, if_neg, Bool.false_eq_true, not_false_iff]

theorem searchLoop_ne_noLoop (dn : Nat → Option Net) :
    ∀ fuel s, ¬ searchLoop dn fuel s = .noLoop := by
  intro fuel
  induction fuel with
  | zero => intro s hc; cases hc
  | succ fuel ih =>
    intro s
    unfold searchLoop
    rcases hstep : step dn s with s' | l
    · exact ih s'
    all_goals intro hc; cases hc

theorem stepAdvance_found_buildLoop (wl cur : List Nat) (rest : List Frame) (w : Nat)
    (net : Net) (k : Nat) (l : List Frame)
    (h : stepAdvance wl cur rest w net k = .found l) :
    ∃ x st, buildLoop x st = some l := by
  unfold stepAdvance at h
  by_cases hk : k = net.args.length
  · rw [if_pos hk] at h
    cases h
  · rw [if_neg hk] at h
    rcases hget : net.args.get? k with _ | next
    · rw [hget] at h
      cases h
    · rw [hget] at h
      dsimp only at h
      by_cases hnext : next ∈ cur
      · rw [if_pos hnext] at h
        rcases hbl : buildLoop next (⟨w, some (net, k)⟩ :: rest) with _ | l'
        · rw [hbl] at h; cases h
        · rw [hbl] at h
          injection h with h2
          subst h2
          exact ⟨next, _, hbl⟩
      · rw [if_neg hnext] at h
        cases h

theorem step_found_buildLoop (dn : Nat → Option Net) (s : SearchState) (l : List Frame)
    (h : step dn s = .found l) : ∃ x st, buildLoop x st = some l := by
  rcases s with ⟨wl, cur, stack⟩
  cases stack with
  | nil => cases h
  | cons top rest =>
    rcases top with ⟨w, visit⟩
    cases visit with
    | some nk =>
      rcases nk with ⟨net, k⟩
      simp only [step] at h
      exact stepAdvance_found_buildLoop _ _ _ _ _ _ _ h
    | none =>
      simp only [step] at h
      by_cases hw : w ∈ wl
      · rw [if_pos hw] at h
        rcases hdn : dn w with _ | net
        · rw [hdn] at h; cases h
        · rw [hdn] at h
          dsimp only at h
          by_cases hr : net.op = 'r'
          · rw [if_pos hr] at h; cases h
          · rw [if_neg hr] at h
            exact stepAdvance_found_buildLoop _ _ _ _ _ _ _ h
      · rw [if_neg hw] at h
        cases h

theorem searchLoop_loop_buildLoop (dn : Nat → Option Net) :
    ∀ fuel s l, searchLoop dn fuel s = .loop l → ∃ x st, buildLoop x st = some l := by
  intro fuel
  induction fuel with
  | zero => intro s l hc; cases hc
  | succ fuel ih =>
    intro s l h
    unfold searchLoop at h
    rcases hstep : step dn s with s' | l'
    · rw [hstep] at h
      exact ih s' l h
    · rw [hstep] at h
      injection h with h2
      subst h2
      exact step_found_buildLoop dn s l' hstep
    all_goals rw [hstep] at h; cases h

theorem acycB_no_cycle : ¬ ∃ c, isCombCycle acycB c := by
  rintro ⟨c, hne, hmem, hidx⟩
  have hlen : 0 < c.length := List.length_pos.mpr hne
  have hconn := hidx 0 hlen
  have h0 : c.getD 0 dNet = (⟨'&', [0], [1]⟩ : Net) := by
    have := (hmem _ (getD_mem_net c 0 hlen)).1
    simpa [acycB] using this
  have h1 : c.getD (1 % c.length) dNet = (⟨'&', [0], [1]⟩ : Net) := by
    have := (hmem _ (getD_mem_net c (1 % c.length) (Nat.mod_lt _ hlen))).1
    simpa [acycB] using this
  rw [h0, h1] at hconn
  rcases hconn with ⟨w, hw1, hw2⟩
  simp at hw1 hw2
  omega

theorem regB_no_cycle : ¬ ∃ c, isCombCycle regB c := by
  rintro ⟨c, hne, hmem, hidx⟩
  have hlen : 0 < c.length := List.length_pos.mpr hne
  have hconn := hidx 0 hlen
  have hnr : ∀ n ∈ c, n = (⟨'&', [0], [1]⟩ : Net) := by
    intro n hn
    rcases hmem n hn with ⟨hb, hr⟩
    rcases List.mem_cons.mp hb with h1 | h2
    · exact absurd (by rw [h1]) hr
    · simpa [regB] using h2
  have h0 := hnr _ (getD_mem_net c 0 hlen)
  have h1 := hnr _ (getD_mem_net c (1 % c.length) (Nat.mod_lt _ hlen))
  rw [h0, h1] at hconn
  rcases hconn with ⟨w, hw1, hw2⟩
  simp at hw1 hw2
  omega

/-- C1 (amended): for a well-formed block, if the nets contain no register-free
cycle then `find_loop` returns None for every start wire (in particular for a
feedback path routed through a register); and if a register-free cycle exists
then for every choice of starting wire from the surviving candidate set,
`find_loop` returns a non-empty list of frames.  (The original claim's further
assertion that the returned nets include the nets of every given cycle is
refuted by `find_loop_two_cycles_cx`.) -/
theorem find_loop_cycles (b : Block) (hwf : WellFormed b) :
    ((¬ ∃ c, isCombCycle b c) → ∀ start, find_loop b start = .noLoop) ∧
    (∀ c, isCombCycle b c → ∀ start ∈ (pruneLoop (regularWires b) b.nets).1,
      ∃ l, find_loop b start = .loop l ∧ ¬ l = []) := by
  constructor
  · intro hnc start
    by_cases hL : (pruneLoop (regularWires b) b.nets).2 = []
    · exact find_loop_of_nil b start hL
    · exfalso
      rcases hL2 : (pruneLoop (regularWires b) b.nets).2 with _ | ⟨n0, Lr⟩
      · exact hL hL2
      · have hn0 : n0 ∈ (pruneLoop (regularWires b) b.nets).2 := by
          rw [hL2]
          exact List.mem_cons_self _ _
        rcases pruneLoop_live (regularWires b) b.nets n0 hn0 with ⟨a, _, haW⟩
        exact hnc (cycle_of_goodW b _ _
          (pruneLoop_ll_subset (regularWires b) b.nets)
          (goodW_of_wf b hwf) a haW)
  · intro c hc start hstart
    have hL := (cycle_survives b hwf c hc).2
    rw [find_loop_of_ne_nil b start hL]
    have hJ : Jinv (pruneLoop (regularWires b) b.nets).1
        (dest_nets (pruneLoop (regularWires b) b.nets).2)
        (initState start (pruneLoop (regularWires b) b.nets).1) := by
      refine ⟨rfl, ⟨trivial, trivial, ?_⟩, ?_⟩
      · intro _ hns
        exact absurd hstart hns
      · intro x hx
        cases hx
    rcases searchLoop_finds _ _ (goodW_of_wf b hwf) _ _ hJ (Nat.lt_succ_self _) with
      ⟨l, hl, hne⟩
    exact ⟨l, hl, hne⟩

/-- C1 counterexample: on a block with two disjoint register-free 2-cycles,
starting from wire 0, the returned loop consists of the nets of the first cycle
only, so it does not include the nets of the (equally valid) cycle
`[ex4N3, ex4N4]`, contradicting the claim's "include the nets of that cycle,
for every choice of starting wire". -/
theorem find_loop_two_cycles_cx :
    isCombCycle twoCycB [ex4N3, ex4N4] ∧
    0 ∈ (pruneLoop (regularWires twoCycB) twoCycB.nets).1 ∧
    find_loop twoCycB 0 =
      .loop [⟨1, some (ex2N2, 0)⟩, ⟨0, some (ex2N1, 0)⟩] ∧
    ¬ ex4N3 ∈ loopNets [⟨1, some (ex2N2, 0)⟩, ⟨0, some (ex2N1, 0)⟩] := by
  refine ⟨by decide, by decide, by decide, by decide⟩

/-- C1 witness: the theorem applied to a concrete acyclic chain, the concrete
register-feedback block, and the concrete two-cycle block. -/
theorem find_loop_cycles_witness :
    (WellFormed acycB ∧ find_loop acycB 0 = .noLoop) ∧
    (WellFormed regB ∧ find_loop regB 7 = .noLoop) ∧
    (WellFormed twoCycB ∧ isCombCycle twoCycB [ex4N3, ex4N4] ∧
      0 ∈ (pruneLoop (regularWires twoCycB) twoCycB.nets).1 ∧
      ∃ l, find_loop twoCycB 0 = .loop l ∧ ¬ l = []) :=
  ⟨⟨by decide, (find_loop_cycles acycB (by decide)).1 acycB_no_cycle 0⟩,
   ⟨by decide, (find_loop_cycles regB (by decide)).1 regB_no_cycle 7⟩,
   ⟨by decide, by decide, by decide,
    (find_loop_cycles twoCycB (by decide)).2 [ex4N3, ex4N4] (by decide) 0 (by decide)⟩⟩

/-- C6 (amended): when the search finds a cycle, the returned list is exactly
the contiguous run of frames from the top of the stack down to the occurrence
of the repeated wire nearest the top, in that order: top of stack first, the
frame of the repeated wire last (not deepest first as originally claimed, see
`find_loop_order_cx`); and every loop returned by `find_loop` arises from this
reconstruction. -/
theorem loop_reconstruction :
    (∀ (x : Nat) (st : List Frame), (∃ f ∈ st, f.dst_w = x) →
      ∃ pre f post, st = pre ++ f :: post ∧ f.dst_w = x ∧
        (∀ g ∈ pre, ¬ g.dst_w = x) ∧ buildLoop x st = some (pre ++ [f])) ∧
    (∀ (b : Block) (start : Nat) (l : List Frame), find_loop b start = .loop l →
      ∃ x st, buildLoop x st = some l) := by
  constructor
  · exact buildLoop_decomp
  · intro b start l h
    by_cases hL : (pruneLoop (regularWires b) b.nets).2 = []
    · rw [find_loop_of_nil b start hL] at h
      cases h
    · rw [find_loop_of_ne_nil b start hL] at h
      exact searchLoop_loop_buildLoop _ _ _ l h

/-- C6 counterexample: on the two-gate cycle, the frame for wire 0 (with net
`ex2N1`) is the deepest frame of the detection stack and the frame for wire 1
(net `ex2N2`) is the top, so the claimed deepest-first net order would be
`[ex2N1, ex2N2]`; the code returns the top-first order `[ex2N2, ex2N1]`. -/
theorem find_loop_order_cx :
    find_loop cycB 0 = .loop [⟨1, some (ex2N2, 0)⟩, ⟨0, some (ex2N1, 0)⟩] ∧
    loopNets [⟨1, some (ex2N2, 0)⟩, ⟨0, some (ex2N1, 0)⟩] = [ex2N2, ex2N1] ∧
    ¬ ([ex2N2, ex2N1] : List Net) = [ex2N1, ex2N2] := by
  refine ⟨by decide, by decide, by decide⟩

/-- C6 witness: the reconstruction theorem applied to the concrete detection
stack of the two-gate cycle and to the concrete `find_loop` run. -/
theorem loop_reconstruction_witness :
    (∃ pre f post,
      ([⟨1, some (ex2N2, 0)⟩, ⟨0, some (ex2N1, 0)⟩] : List Frame) = pre ++ f :: post ∧
      f.dst_w = 0 ∧ (∀ g ∈ pre, ¬ g.dst_w = 0) ∧
      buildLoop 0 [⟨1, some (ex2N2, 0)⟩, ⟨0, some (ex2N1, 0)⟩] = some (pre ++ [f])) ∧
    (∃ x st, buildLoop x st =
      some [⟨1, some (ex2N2, 0)⟩, ⟨0, some (ex2N1, 0)⟩]) :=
  ⟨loop_reconstruction.1 0 _ ⟨⟨0, some (ex2N1, 0)⟩, by decide, rfl⟩,
   loop_reconstruction.2 cycB 0 _ (by decide)⟩

/-- C8: both loops of the detector terminate: the pruning loop stops at a
fixed point of the pass, and the search loop completes within the explicit
fuel bound `phi`, so `find_loop` (which runs with fuel `phi + 1`) never
exhausts its fuel. -/
theorem detector_terminates :
    (∀ (wl : List Nat) (ll : List Net),
      prunePass (pruneLoop wl ll).2 (pruneLoop wl ll).1 =
        ((pruneLoop wl ll).1, (pruneLoop wl ll).2)) ∧
    (∀ (dn : Nat → Option Net) (fuel : Nat) (s : SearchState),
      phi dn s < fuel → ¬ searchLoop dn fuel s = .fuelOut) ∧
    (∀ (b : Block) (start : Nat), ¬ find_loop b start = .fuelOut) := by
  refine ⟨pruneLoop_fix, searchLoop_total, ?_⟩
  intro b start
  by_cases hL : (pruneLoop (regularWires b) b.nets).2 = []
  · rw [find_loop_of_nil b start hL]
    intro hc
    cases hc
  · rw [find_loop_of_ne_nil b start hL]
    exact searchLoop_total _ _ _ (Nat.lt_succ_self _)

/-- C8 witness: the fuel bound applied at a concrete search state. -/
theorem detector_terminates_witness :
    phi (dest_nets []) (initState 0 []) < 2 ∧
    ¬ searchLoop (dest_nets []) 2 (initState 0 []) = .fuelOut :=
  ⟨by decide, detector_terminates.2.1 (dest_nets []) 2 (initState 0 []) (by decide)⟩

/-- C10: the fallback error branch after the loop-reconstruction scan (the
"Shouldn't get here" raise) is unreachable: under the invariant that every
wire of `current_wires` is the `dst_w` of a frame on the stack (established
from the empty initial state and preserved by every iteration), the scanned
repeated wire is always found, so `find_loop` never returns that error. -/
theorem reconstruction_never_fails :
    (∀ (dn : Nat → Option Net) (fuel : Nat) (s : SearchState),
      curInv s → ¬ searchLoop dn fuel s = .errInternal) ∧
    (∀ (b : Block) (start : Nat), ¬ find_loop b start = .errInternal) := by
  refine ⟨searchLoop_no_internal, ?_⟩
  intro b start
  by_cases hL : (pruneLoop (regularWires b) b.nets).2 = []
  · rw [find_loop_of_nil b start hL]
    intro hc
    cases hc
  · rw [find_loop_of_ne_nil b start hL]
    exact searchLoop_no_internal _ _ _ (fun x hx => absurd hx (List.not_mem_nil x))

/-- C10 witness: the invariant-based statement applied at a concrete state. -/
theorem reconstruction_never_fails_witness :
    curInv (initState 0 []) ∧
    ¬ searchLoop (dest_nets []) 3 (initState 0 []) = .errInternal :=
  ⟨fun x hx => absurd hx (List.not_mem_nil x),
   reconstruction_never_fails.1 (dest_nets []) 3 (initState 0 [])
     (fun x hx => absurd hx (List.not_mem_nil x))⟩

/-!  The memory port model of `pyrtl/memory.py`.

`PyrtlError` sites are embedded as explicit error values.  Methods that raise
after mutating object state return the mutated state together with the error
(Python objects survive the exception). -/

deriving instance DecidableEq for Except

/-- The distinct `PyrtlError` raise sites relevant to the claims. -/
inductive PErr where
  | badBitwidth
  | badAddrwidth
  | maxReadPorts (m : Nat)
  | maxWritePorts (m : Nat)
  | romWrite
  | invalidAddress
  | invalidDataFunction
  | uninitKey
  | invalidValue
  | cmpTypeErr
  | modelErr
deriving DecidableEq, Repr

/-- A read-port (`op = 'm'`) or write-port (`op = '@'`) `LogicNet`; `param` is
the memory id of the `op_param = (self.id, self)` payload. -/
structure MemNet where
  op : Char
  param : Nat
  args : List Nat
  dests : List Nat
deriving DecidableEq, Repr

/-- `MemBlock` state: construction parameters, the two port counters, and the
port-net lists. -/
structure Mem where
  bitwidth : Nat
  addrwidth : Nat
  max_read_ports : Option Nat
  max_write_ports : Option Nat
  num_read_ports : Nat
  num_write_ports : Nat
  readport_nets : List MemNet
  writeport_nets : List MemNet
  mid : Nat
deriving DecidableEq, Repr

/-- Embeds `MemBlock.__init__`: fails on non-positive widths, initializes the
counters to zero and the port lists to empty.  `mid` is the identity drawn from
the global `_memIndex`. -/
def mkMemBlock (bitwidth addrwidth : Nat) (max_read_ports max_write_ports : Option Nat)
    (mid : Nat) : Except PErr Mem :=
  if bitwidth = 0 then .error .badBitwidth
  else if addrwidth = 0 then .error .badAddrwidth
  else .ok
    { bitwidth := bitwidth
      addrwidth := addrwidth
      max_read_ports := max_read_ports
      max_write_ports := max_write_ports
      num_read_ports := 0
      num_write_ports := 0
      readport_nets := []
      writeport_nets := []
      mid := mid }

/-- A memory together with the surrounding working-block state it mutates: the
fresh-wire supply (for the new data `WireVector`) and the block's net list
(`working_block().add_net`). -/
structure MemW where
  mem : Mem
  nextWire : Nat
  blockNets : List MemNet
deriving DecidableEq, Repr

/-- Embeds `MemBlock._build_read_port`.  Note the counter is incremented
*before* the capacity check; on failure the incremented counter is the only
mutation.  On success a fresh data wire is allocated and the read-port net is
added to the block and to `readport_nets`. -/
def mem_build_read_port (w : MemW) (addr : Nat) : MemW × Except PErr Nat :=
  match w.mem.max_read_ports with
  | some mx =>
    if w.mem.num_read_ports + 1 > mx then
      ({ w with mem := { w.mem with num_read_ports := w.mem.num_read_ports + 1 } },
        .error (.maxReadPorts mx))
    else
      ({ mem := { w.mem with
            num_read_ports := w.mem.num_read_ports + 1
            readport_nets := w.mem.readport_nets ++
              [⟨'m', w.mem.mid, [addr], [w.nextWire]⟩] }
         nextWire := w.nextWire + 1
         blockNets := w.blockNets ++ [⟨'m', w.mem.mid, [addr], [w.nextWire]⟩] },
        .ok w.nextWire)
  | none =>
    ({ mem := { w.mem with
          readport_nets := w.mem.readport_nets ++
            [⟨'m', w.mem.mid, [addr], [w.nextWire]⟩] }
       nextWire := w.nextWire + 1
       blockNets := w.blockNets ++ [⟨'m', w.mem.mid, [addr], [w.nextWire]⟩] },
      .ok w.nextWire)

/-- Embeds `MemBlock._build` (the write-port builder), with the same
increment-before-check structure. -/
def mem_build (w : MemW) (addr data enable : Nat) : MemW × Option PErr :=
  match w.mem.max_write_ports with
  | some mx =>
    if w.mem.num_write_ports + 1 > mx then
      ({ w with mem := { w.mem with num_write_ports := w.mem.num_write_ports + 1 } },
        some (.maxWritePorts mx))
    else
      ({ mem := { w.mem with
            num_write_ports := w.mem.num_write_ports + 1
            writeport_nets := w.mem.writeport_nets ++
              [⟨'@', w.mem.mid, [addr, data, enable], []⟩] }
         nextWire := w.nextWire
         blockNets := w.blockNets ++ [⟨'@', w.mem.mid, [addr, data, enable], []⟩] },
        none)
  | none =>
    ({ mem := { w.mem with
          writeport_nets := w.mem.writeport_nets ++
            [⟨'@', w.mem.mid, [addr, data, enable], []⟩] }
       nextWire := w.nextWire
       blockNets := w.blockNets ++ [⟨'@', w.mem.mid, [addr, data, enable], []⟩] },
      none)

/-- `j` successive materialized reads of address `addr`, stopping at the first
failure (a raised `PyrtlError` aborts the caller's construction sequence). -/
def readN (addr : Nat) : Nat → MemW → MemW × Option PErr
  | 0, w => (w, none)
  | j + 1, w =>
    match (mem_build_read_port w addr).2 with
    | .ok _ => readN addr j (mem_build_read_port w addr).1
    | .error e => ((mem_build_read_port w addr).1, some e)

/-- `j` successive materialized writes, stopping at the first failure. -/
def writeN (addr data enable : Nat) : Nat → MemW → MemW × Option PErr
  | 0, w => (w, none)
  | j + 1, w =>
    match (mem_build w addr data enable).2 with
    | none => writeN addr data enable j (mem_build w addr data enable).1
    | some e => ((mem_build w addr data enable).1, some e)

/-- An allocation request against a memory. -/
inductive MemOp where
  | read (addr : Nat)
  | write (addr data enable : Nat)
deriving DecidableEq, Repr

/-- One allocation step. -/
def memStep (w : MemW) : MemOp → MemW × Option PErr
  | .read addr =>
    ((mem_build_read_port w addr).1,
      match (mem_build_read_port w addr).2 with
      | .ok _ => none
      | .error e => some e)
  | .write addr data enable => mem_build w addr data enable

/-- A sequence of allocations, stopping at the first failure. -/
def runOps : List MemOp → MemW → MemW × Option PErr
  | [], w => (w, none)
  | op :: rest, w =>
    match (memStep w op).2 with
    | none => runOps rest (memStep w op).1
    | some e => ((memStep w op).1, some e)

/-!  `RomBlock`: the read-only specialization. -/

/-- A ROM data source: a function from address to value (whose `none` models a
raising function), or a keyed container (a dict from address to value; a missing
key models the `KeyError` path).  Addresses and values are integers, as in the
Python source, so that the negative-value checks of `_get_read_data` are
faithful. -/
inductive RomData where
  | fn (f : Int → Option Int)
  | tbl (entries : List (Int × Int))

/-- Lookup in a keyed container. -/
def tblGet (entries : List (Int × Int)) (a : Int) : Option Int :=
  (entries.find? (fun p => p.1 = a)).map Prod.snd

/-- `RomBlock` state: the underlying `MemBlock` fields plus the ROM additions.
`current_copy` is part of the surrounding world (`RomWorld`), because it refers
to another object. -/
structure Rom where
  mem : Mem
  data : RomData
  build_new_roms : Bool
  pad_with_zeros : Bool

/-- Embeds `RomBlock.__init__`: the `MemBlock` initializer with
`max_write_ports = 0`, then the ROM fields (`current_copy = self` is recorded
in the world). -/
def mkRomBlock (bitwidth addrwidth : Nat) (romdata : RomData)
    (max_read_ports : Option Nat) (build_new_roms : Bool) (pad_with_zeros : Bool)
    (mid : Nat) : Except PErr Rom :=
  match mkMemBlock bitwidth addrwidth max_read_ports (some 0) mid with
  | .error e => .error e
  | .ok m => .ok
    { mem := m
      data := romdata
      build_new_roms := build_new_roms
      pad_with_zeros := pad_with_zeros }

/-- Embeds `RomBlock.__setitem__`: unconditionally raises
`'no writing to a read-only memory'`, mutating nothing. -/
def rom_setitem (r : Rom) (item assignment : Nat) : Rom × PErr := (r, .romWrite)

/-- Embeds `RomBlock._get_read_data(address)`: address range check, resolution
through the data source (with the `pad_with_zeros` default on a missing key),
then the value range check `value < 0 or value >= 2**bitwidth`.  The value
check is inlined into each resolution branch; this is the same control flow as
the source, where every resolved value flows into the one check. -/
def get_read_data (bitwidth addrwidth : Nat) (pad_with_zeros : Bool) (d : RomData)
    (address : Int) : Except PErr Int :=
  if address < 0 ∨ address > 2 ^ addrwidth - 1 then .error .invalidAddress
  else
    match d with
    | .fn f =>
      match f address with
      | some v => if v < 0 ∨ v ≥ 2 ^ bitwidth then .error .invalidValue else .ok v
      | none => .error .invalidDataFunction
    | .tbl t =>
      match tblGet t address with
      | some v => if v < 0 ∨ v ≥ 2 ^ bitwidth then .error .invalidValue else .ok v
      | none =>
        if pad_with_zeros then
          if (0 : Int) < 0 ∨ (0 : Int) ≥ 2 ^ bitwidth then .error .invalidValue
          else .ok 0
        else .error .uninitKey

/-- The world a `RomBlock` reference lives in: all ROM objects ever created
(keyed by memory id), the id of the original object, the id of the original's
`current_copy`, the `_memIndex` supply, the fresh-wire supply, and the block's
net list. -/
structure RomWorld where
  store : List (Nat × Rom)
  origId : Nat
  currentId : Nat
  nextId : Nat
  nextWire : Nat
  blockNets : List MemNet

def storeGet (store : List (Nat × Rom)) (i : Nat) : Option Rom :=
  (store.find? (fun p => p.1 = i)).map Prod.snd

def storeSet (store : List (Nat × Rom)) (i : Nat) (r : Rom) : List (Nat × Rom) :=
  store.map (fun p => if p.1 = i then (i, r) else p)

/-- Embeds `RomBlock._build_read_port` called through the original reference:
if `build_new_roms` is set and the current copy's read ports are exhausted, a
fresh replica is created via `_make_copy` (same `bitwidth`, `addrwidth`,
`romdata`, `max_read_ports`, `pad_with_zeros`; `build_new_roms` reverts to the
constructor default `false`) and installed as the new current copy; then the
plain `MemBlock._build_read_port` runs against the current copy. -/
def rom_build_read_port (w : RomWorld) (addr : Nat) : RomWorld × Except PErr Nat :=
  match storeGet w.store w.origId with
  | none => (w, .error .modelErr)
  | some orig =>
    let step1 : RomWorld × Option PErr :=
      if orig.build_new_roms then
        match storeGet w.store w.currentId with
        | none => (w, some .modelErr)
        | some cur =>
          match cur.mem.max_read_ports with
          | none => (w, some .cmpTypeErr)
          | some mx =>
            if cur.mem.num_read_ports ≥ mx then
              match mkRomBlock orig.mem.bitwidth orig.mem.addrwidth orig.data
                  orig.mem.max_read_ports false orig.pad_with_zeros w.nextId with
              | .error e => (w, some e)
              | .ok copy =>
                ({ w with
                    store := w.store ++ [(w.nextId, copy)]
                    currentId := w.nextId
                    nextId := w.nextId + 1 }, none)
            else (w, none)
      else (w, none)
    match step1.2 with
    | some e => (step1.1, .error e)
    | none =>
      let w1 := step1.1
      match storeGet w1.store w1.currentId with
      | none => (w1, .error .modelErr)
      | some cur =>
        let r := mem_build_read_port ⟨cur.mem, w1.nextWire, w1.blockNets⟩ addr
        ({ w1 with
            store := storeSet w1.store w1.currentId { cur with mem := r.1.mem }
            nextWire := r.1.nextWire
            blockNets := r.1.blockNets }, r.2)

/-- A fresh `RomWorld` holding one just-constructed `RomBlock`. -/
def mkRomWorld (r : Rom) (mid nextId nextWire : Nat) : RomWorld :=
  { store := [(mid, r)]
    origId := mid
    currentId := mid
    nextId := nextId
    nextWire := nextWire
    blockNets := [] }

theorem mkMemBlock_ok {bw aw : Nat} {mrp mwp : Option Nat} {mid : Nat} {m : Mem}
    (h : mkMemBlock bw aw mrp mwp mid = .ok m) :
    m = ⟨bw, aw, mrp, mwp, 0, 0, [], [], mid⟩ := by
  unfold mkMemBlock at h
  by_cases hbw : bw = 0
  · rw [if_pos hbw] at h
    cases h
  · rw [if_neg hbw] at h
    by_cases haw : aw = 0
    · rw [if_pos haw] at h
      cases h
    · rw [if_neg haw] at h
      injection h with h2
      exact h2.symm

theorem read_err_state (w : MemW) (addr : Nat) (e : PErr)
    (h : (mem_build_read_port w addr).2 = .error e) :
    (mem_build_read_port w addr).1 =
      { w with mem := { w.mem with num_read_ports := w.mem.num_read_ports + 1 } } ∧
    ∃ mx, w.mem.max_read_ports = some mx ∧ e = .maxReadPorts mx ∧
      w.mem.num_read_ports + 1 > mx := by
  unfold mem_build_read_port at h ⊢
  rcases hmx : w.mem.max_read_ports with _ | mx
  · rw [hmx] at h
    dsimp only at h
    cases h
  · rw [hmx] at h
    dsimp only at h ⊢
    by_cases hgt : w.mem.num_read_ports + 1 > mx
    · rw [if_pos hgt] at h ⊢
      refine ⟨rfl, mx, rfl, ?_, hgt⟩
      injection h with h2
      exact h2.symm
    · rw [if_neg hgt] at h
      cases h

theorem write_err_state (w : MemW) (addr data enable : Nat) (e : PErr)
    (h : (mem_build w addr data enable).2 = some e) :
    (mem_build w addr data enable).1 =
      { w with mem := { w.mem with num_write_ports := w.mem.num_write_ports + 1 } } ∧
    ∃ mx, w.mem.max_write_ports = some mx ∧ e = .maxWritePorts mx ∧
      w.mem.num_write_ports + 1 > mx := by
  unfold mem_build at h ⊢
  rcases hmx : w.mem.max_write_ports with _ | mx
  · rw [hmx] at h
    dsimp only at h
    cases h
  · rw [hmx] at h
    dsimp only at h ⊢
    by_cases hgt : w.mem.num_write_ports + 1 > mx
    · rw [if_pos hgt] at h ⊢
      refine ⟨rfl, mx, rfl, ?_, hgt⟩
      injection h with h2
      exact h2.symm
    · rw [if_neg hgt] at h
      cases h

theorem read_ok_state (w : MemW) (addr : Nat) (mx : Nat)
    (hmx : w.mem.max_read_ports = some mx) (hle : w.mem.num_read_ports + 1 ≤ mx) :
    (mem_build_read_port w addr).2 = .ok w.nextWire ∧
    (mem_build_read_port w addr).1.mem.num_read_ports = w.mem.num_read_ports + 1 ∧
    (mem_build_read_port w addr).1.mem.max_read_ports = some mx ∧
    (mem_build_read_port w addr).1.mem.max_write_ports = w.mem.max_write_ports ∧
    (mem_build_read_port w addr).1.mem.num_write_ports = w.mem.num_write_ports := by
  unfold mem_build_read_port
  rw [hmx]
  dsimp only
  rw [if_neg (by omega : ¬ w.mem.num_read_ports + 1 > mx)]
  exact ⟨rfl, rfl, hmx, rfl, rfl⟩

theorem write_ok_state (w : MemW) (addr data enable : Nat) (mx : Nat)
    (hmx : w.mem.max_write_ports = some mx) (hle : w.mem.num_write_ports + 1 ≤ mx) :
    (mem_build w addr data enable).2 = none ∧
    (mem_build w addr data enable).1.mem.num_write_ports = w.mem.num_write_ports + 1 ∧
    (mem_build w addr data enable).1.mem.max_write_ports = some mx ∧
    (mem_build w addr data enable).1.mem.max_read_ports = w.mem.max_read_ports ∧
    (mem_build w addr data enable).1.mem.num_read_ports = w.mem.num_read_ports := by
  unfold mem_build
  rw [hmx]
  dsimp only
  rw [if_neg (by omega : ¬ w.mem.num_write_ports + 1 > mx)]
  exact ⟨rfl, rfl, hmx, rfl, rfl⟩

theorem read_fail_res (w : MemW) (addr : Nat) (mx : Nat)
    (hmx : w.mem.max_read_ports = some mx) (hgt : w.mem.num_read_ports + 1 > mx) :
    (mem_build_read_port w addr).2 = .error (.maxReadPorts mx) := by
  unfold mem_build_read_port
  rw [hmx]
  dsimp only
  rw [if_pos hgt]

theorem write_fail_res (w : MemW) (addr data enable : Nat) (mx : Nat)
    (hmx : w.mem.max_write_ports = some mx) (hgt : w.mem.num_write_ports + 1 > mx) :
    (mem_build w addr data enable).2 = some (.maxWritePorts mx) := by
  unfold mem_build
  rw [hmx]
  dsimp only
  rw [if_pos hgt]

theorem readN_ok (addr : Nat) (k : Nat) :
    ∀ j (w : MemW), w.mem.max_read_ports = some k →
      w.mem.num_read_ports + j ≤ k →
      (readN addr j w).2 = none ∧
      (readN addr j w).1.mem.num_read_ports = w.mem.num_read_ports + j ∧
      (readN addr j w).1.mem.max_read_ports = some k := by
  intro j
  induction j with
  | zero =>
    intro w hmx _
    exact ⟨rfl, rfl, hmx⟩
  | succ j ih =>
    intro w hmx hle
    obtain ⟨h1, h2, h3, _, _⟩ := read_ok_state w addr k hmx (by omega)
    unfold readN
    rw [h1]
    obtain ⟨ih1, ih2, ih3⟩ := ih (mem_build_read_port w addr).1 h3 (by omega)
    exact ⟨ih1, by rw [ih2, h2]; omega, ih3⟩

theorem readN_fail (addr : Nat) (k : Nat) :
    ∀ j (w : MemW), w.mem.max_read_ports = some k →
      w.mem.num_read_ports + j = k →
      (readN addr (j + 1) w).2 = some (.maxReadPorts k) := by
  intro j
  induction j with
  | zero =>
    intro w hmx heq
    unfold readN
    rw [read_fail_res w addr k hmx (by omega)]
  | succ j ih =>
    intro w hmx heq
    obtain ⟨h1, h2, h3, _, _⟩ := read_ok_state w addr k hmx (by omega)
    unfold readN
    rw [h1]
    exact ih (mem_build_read_port w addr).1 h3 (by omega)

theorem writeN_ok (addr data enable : Nat) (k : Nat) :
    ∀ j (w : MemW), w.mem.max_write_ports = some k →
      w.mem.num_write_ports + j ≤ k →
      (writeN addr data enable j w).2 = none ∧
      (writeN addr data enable j w).1.mem.num_write_ports =
        w.mem.num_write_ports + j ∧
      (writeN addr data enable j w).1.mem.max_write_ports = some k := by
  intro j
  induction j with
  | zero =>
    intro w hmx _
    exact ⟨rfl, rfl, hmx⟩
  | succ j ih =>
    intro w hmx hle
    obtain ⟨h1, h2, h3, _, _⟩ := write_ok_state w addr data enable k hmx (by omega)
    unfold writeN
    rw [h1]
    obtain ⟨ih1, ih2, ih3⟩ := ih (mem_build w addr data enable).1 h3 (by omega)
    exact ⟨ih1, by rw [ih2, h2]; omega, ih3⟩

theorem writeN_fail (addr data enable : Nat) (k : Nat) :
    ∀ j (w : MemW), w.mem.max_write_ports = some k →
      w.mem.num_write_ports + j = k →
      (writeN addr data enable (j + 1) w).2 = some (.maxWritePorts k) := by
  intro j
  induction j with
  | zero =>
    intro w hmx heq
    unfold writeN
    rw [write_fail_res w addr data enable k hmx (by omega)]
  | succ j ih =>
    intro w hmx heq
    obtain ⟨h1, h2, h3, _, _⟩ := write_ok_state w addr data enable k hmx (by omega)
    unfold writeN
    rw [h1]
    exact ih (mem_build w addr data enable).1 h3 (by omega)

/-- The invariant of C2 (amended): counters within caps. -/
def capsOK (w : MemW) : Prop :=
  (∀ c, w.mem.max_read_ports = some c → w.mem.num_read_ports ≤ c) ∧
  (∀ c, w.mem.max_write_ports = some c → w.mem.num_write_ports ≤ c)

theorem read_none_state (w : MemW) (addr : Nat)
    (hmx : w.mem.max_read_ports = none) :
    (mem_build_read_port w addr).1.mem.max_read_ports = none ∧
    (mem_build_read_port w addr).1.mem.num_read_ports = w.mem.num_read_ports ∧
    (mem_build_read_port w addr).1.mem.max_write_ports = w.mem.max_write_ports ∧
    (mem_build_read_port w addr).1.mem.num_write_ports = w.mem.num_write_ports := by
  unfold mem_build_read_port
  rw [hmx]
  exact ⟨hmx, rfl, rfl, rfl⟩

theorem write_none_state (w : MemW) (addr data enable : Nat)
    (hmx : w.mem.max_write_ports = none) :
    (mem_build w addr data enable).1.mem.max_write_ports = none ∧
    (mem_build w addr data enable).1.mem.num_write_ports = w.mem.num_write_ports ∧
    (mem_build w addr data enable).1.mem.max_read_ports = w.mem.max_read_ports ∧
    (mem_build w addr data enable).1.mem.num_read_ports = w.mem.num_read_ports := by
  unfold mem_build
  rw [hmx]
  exact ⟨hmx, rfl, rfl, rfl⟩

theorem read_state_caps (w : MemW) (addr : Nat) (hc : capsOK w)
    (hok : ¬ ∃ e, (mem_build_read_port w addr).2 = .error e) :
    capsOK (mem_build_read_port w addr).1 := by
  rcases hmx : w.mem.max_read_ports with _ | mx
  · obtain ⟨h1, h2, h3, h4⟩ := read_none_state w addr hmx
    refine ⟨?_, ?_⟩
    · intro c hcm
      rw [h1] at hcm
      cases hcm
    · intro c hcm
      rw [h3] at hcm
      rw [h4]
      exact hc.2 c hcm
  · have hle : w.mem.num_read_ports + 1 ≤ mx := by
      by_contra hcon
      exact hok ⟨_, read_fail_res w addr mx hmx (by omega)⟩
    obtain ⟨h1, h2, h3, h4, h5⟩ := read_ok_state w addr mx hmx hle
    refine ⟨?_, ?_⟩
    · intro c hcm
      rw [h3] at hcm
      injection hcm with hcm2
      subst hcm2
      rw [h2]
      exact hle
    · intro c hcm
      rw [h4] at hcm
      rw [h5]
      exact hc.2 c hcm

theorem write_state_caps (w : MemW) (addr data enable : Nat) (hc : capsOK w)
    (hok : ¬ ∃ e, (mem_build w addr data enable).2 = some e) :
    capsOK (mem_build w addr data enable).1 := by
  rcases hmx : w.mem.max_write_ports with _ | mx
  · obtain ⟨h1, h2, h3, h4⟩ := write_none_state w addr data enable hmx
    refine ⟨?_, ?_⟩
    · intro c hcm
      rw [h3] at hcm
      rw [h4]
      exact hc.1 c hcm
    · intro c hcm
      rw [h1] at hcm
      cases hcm
  · have hle : w.mem.num_write_ports + 1 ≤ mx := by
      by_contra hcon
      exact hok ⟨_, write_fail_res w addr data enable mx hmx (by omega)⟩
    obtain ⟨h1, h2, h3, h4, h5⟩ := write_ok_state w addr data enable mx hmx hle
    refine ⟨?_, ?_⟩
    · intro c hcm
      rw [h4] at hcm
      rw [h5]
      exact hc.1 c hcm
    · intro c hcm
      rw [h3] at hcm
      injection hcm with hcm2
      subst hcm2
      rw [h2]
      exact hle

theorem memStep_caps (w : MemW) (op : MemOp) (hc : capsOK w)
    (hok : (memStep w op).2 = none) : capsOK (memStep w op).1 := by
  rcases op with addr | ⟨addr, data, enable⟩
  · simp only [memStep] at hok ⊢
    apply read_state_caps w addr hc
    rintro ⟨e, he⟩
    rw [he] at hok
    cases hok
  · simp only [memStep] at hok ⊢
    apply write_state_caps w addr data enable hc
    rintro ⟨e, he⟩
    rw [he] at hok
    cases hok

theorem runOps_cons_none (op : MemOp) (rest : List MemOp) (w : MemW)
    (hs : (memStep w op).2 = none) :
    runOps (op :: rest) w = runOps rest (memStep w op).1 := by
  conv_lhs => unfold runOps
  rw [hs]

theorem runOps_cons_some (op : MemOp) (rest : List MemOp) (w : MemW) (e : PErr)
    (hs : (memStep w op).2 = some e) :
    runOps (op :: rest) w = ((memStep w op).1, some e) := by
  conv_lhs => unfold runOps
  rw [hs]

theorem runOps_caps : ∀ (ops : List MemOp) (w : MemW), capsOK w →
    (runOps ops w).2 = none → capsOK (runOps ops w).1 := by
  intro ops
  induction ops with
  | nil =>
    intro w hc _
    exact hc
  | cons op rest ih =>
    intro w hc hok
    rcases hs : (memStep w op).2 with _ | e
    · rw [runOps_cons_none op rest w hs] at hok ⊢
      exact ih _ (memStep_caps w op hc hs) hok
    · rw [runOps_cons_some op rest w e hs] at hok
      cases hok

/-- C2 (amended): after any sequence of allocations in which none failed, the
port counters never exceed their caps (when the caps are not None); an
allocation that would violate a cap raises after incrementing the violated
counter past the cap, but mutates nothing else: no net is added to the block
and the port-net lists are unchanged.  (The original claim's "counts never
exceed their caps" after failing allocations is refuted by
`mem_caps_exceeded_cx`: the failing call leaves the counter above the cap.) -/
theorem mem_caps_invariant :
    (∀ (bw aw : Nat) (mrp mwp : Option Nat) (mid : Nat) (m : Mem)
        (ops : List MemOp) (nw : Nat),
      mkMemBlock bw aw mrp mwp mid = .ok m →
      (runOps ops ⟨m, nw, []⟩).2 = none →
      (∀ c, (runOps ops ⟨m, nw, []⟩).1.mem.max_read_ports = some c →
        (runOps ops ⟨m, nw, []⟩).1.mem.num_read_ports ≤ c) ∧
      (∀ c, (runOps ops ⟨m, nw, []⟩).1.mem.max_write_ports = some c →
        (runOps ops ⟨m, nw, []⟩).1.mem.num_write_ports ≤ c)) ∧
    (∀ (w : MemW) (addr : Nat) (e : PErr),
      (mem_build_read_port w addr).2 = .error e →
      (mem_build_read_port w addr).1 =
        { w with mem := { w.mem with num_read_ports := w.mem.num_read_ports + 1 } }) ∧
    (∀ (w : MemW) (addr data enable : Nat) (e : PErr),
      (mem_build w addr data enable).2 = some e →
      (mem_build w addr data enable).1 =
        { w with mem := { w.mem with num_write_ports := w.mem.num_write_ports + 1 } }) := by
  refine ⟨?_, ?_, ?_⟩
  · intro bw aw mrp mwp mid m ops nw hmk hok
    have hm := mkMemBlock_ok hmk
    have hc0 : capsOK ⟨m, nw, []⟩ := by
      subst hm
      exact ⟨fun c _ => Nat.zero_le c, fun c _ => Nat.zero_le c⟩
    exact runOps_caps ops ⟨m, nw, []⟩ hc0 hok
  · intro w addr e h
    exact (read_err_state w addr e h).1
  · intro w addr data enable e h
    exact (write_err_state w addr data enable e h).1

/-- C2 counterexample: a memory created with `max_read_ports = 2`; three
materialized reads leave `num_read_ports = 3`, strictly above the cap, because
the third (failing) call increments the counter before raising. -/
theorem mem_caps_exceeded_cx :
    mkMemBlock 3 3 (some 2) (some 1) 0 =
      .ok ⟨3, 3, some 2, some 1, 0, 0, [], [], 0⟩ ∧
    (readN 0 3 ⟨⟨3, 3, some 2, some 1, 0, 0, [], [], 0⟩, 10, []⟩).2 =
      some (.maxReadPorts 2) ∧
    (readN 0 3 ⟨⟨3, 3, some 2, some 1, 0, 0, [], [], 0⟩, 10, []⟩).1.mem.num_read_ports
      = 3 ∧
    ¬ (readN 0 3 ⟨⟨3, 3, some 2, some 1, 0, 0, [], [], 0⟩, 10, []⟩).1.mem.num_read_ports
      ≤ 2 := by
  refine ⟨by decide, by decide, by decide, by decide⟩

/-- C2 witness: the amended invariant applied to a concrete successful
sequence, and the failure clauses applied at a concrete full memory. -/
theorem mem_caps_invariant_witness :
    ((runOps [.read 0, .read 1, .write 0 1 2]
        ⟨⟨3, 3, some 2, some 1, 0, 0, [], [], 0⟩, 10, []⟩).2 = none →
      (∀ c, (runOps [.read 0, .read 1, .write 0 1 2]
          ⟨⟨3, 3, some 2, some 1, 0, 0, [], [], 0⟩, 10, []⟩).1.mem.max_read_ports =
            some c →
        (runOps [.read 0, .read 1, .write 0 1 2]
          ⟨⟨3, 3, some 2, some 1, 0, 0, [], [], 0⟩, 10, []⟩).1.mem.num_read_ports ≤ c) ∧
      (∀ c, (runOps [.read 0, .read 1, .write 0 1 2]
          ⟨⟨3, 3, some 2, some 1, 0, 0, [], [], 0⟩, 10, []⟩).1.mem.max_write_ports =
            some c →
        (runOps [.read 0, .read 1, .write 0 1 2]
          ⟨⟨3, 3, some 2, some 1, 0, 0, [], [], 0⟩, 10, []⟩).1.mem.num_write_ports ≤ c)) ∧
    (mem_build_read_port ⟨⟨3, 3, some 0, some 1, 0, 0, [], [], 0⟩, 10, []⟩ 4).1 =
      ⟨⟨3, 3, some 0, some 1, 1, 0, [], [], 0⟩, 10, []⟩ :=
  ⟨mem_caps_invariant.1 3 3 (some 2) (some 1) 0 _ [.read 0, .read 1, .write 0 1 2] 10
      (by decide),
   mem_caps_invariant.2.1 ⟨⟨3, 3, some 0, some 1, 0, 0, [], [], 0⟩, 10, []⟩ 4
      (.maxReadPorts 0) (by decide)⟩

/-- C3: for a memory created with `max_read_ports = k`, the first `k`
materialized reads all succeed and the `(k+1)`-th raises the
maximum-read-ports error; analogously for writes with `max_write_ports = k`. -/
theorem mem_port_capacity :
    (∀ (bw aw : Nat) (mwp : Option Nat) (mid k addr nw : Nat) (m : Mem),
      mkMemBlock bw aw (some k) mwp mid = .ok m →
      (∀ j, j ≤ k → (readN addr j ⟨m, nw, []⟩).2 = none) ∧
      (readN addr (k + 1) ⟨m, nw, []⟩).2 = some (.maxReadPorts k)) ∧
    (∀ (bw aw : Nat) (mrp : Option Nat) (mid k addr data enable nw : Nat) (m : Mem),
      mkMemBlock bw aw mrp (some k) mid = .ok m →
      (∀ j, j ≤ k → (writeN addr data enable j ⟨m, nw, []⟩).2 = none) ∧
      (writeN addr data enable (k + 1) ⟨m, nw, []⟩).2 = some (.maxWritePorts k)) := by
  constructor
  · intro bw aw mwp mid k addr nw m hmk
    have hm := mkMemBlock_ok hmk
    subst hm
    constructor
    · intro j hj
      exact (readN_ok addr k j _ rfl (by simpa using hj)).1
    · exact readN_fail addr k k _ rfl (by simp)
  · intro bw aw mrp mid k addr data enable nw m hmk
    have hm := mkMemBlock_ok hmk
    subst hm
    constructor
    · intro j hj
      exact (writeN_ok addr data enable k j _ rfl (by simpa using hj)).1
    · exact writeN_fail addr data enable k k _ rfl (by simp)

/-- C3 witness: the end-to-end scenario of the spec, `bitwidth = 3`,
`addrwidth = 3`, `max_read_ports = 2`, `max_write_ports = 1`. -/
theorem mem_port_capacity_witness :
    ((∀ j, j ≤ 2 →
        (readN 0 j ⟨⟨3, 3, some 2, some 1, 0, 0, [], [], 0⟩, 10, []⟩).2 = none) ∧
      (readN 0 3 ⟨⟨3, 3, some 2, some 1, 0, 0, [], [], 0⟩, 10, []⟩).2 =
        some (.maxReadPorts 2)) ∧
    ((∀ j, j ≤ 1 →
        (writeN 0 1 2 j ⟨⟨3, 3, some 2, some 1, 0, 0, [], [], 0⟩, 10, []⟩).2 = none) ∧
      (writeN 0 1 2 2 ⟨⟨3, 3, some 2, some 1, 0, 0, [], [], 0⟩, 10, []⟩).2 =
        some (.maxWritePorts 1)) :=
  ⟨mem_port_capacity.1 3 3 (some 1) 0 2 0 10 _ (by decide),
   mem_port_capacity.2 3 3 (some 2) 0 1 0 1 2 10 _ (by decide)⟩

/-- C9: when a read or write allocation fails with the capacity error, no net
is added to the block, the `readport_nets` and `writeport_nets` lists are
unchanged, and the only mutation is the corresponding counter, which was
incremented before the check. -/
theorem failed_alloc_mutates_only_counter :
    (∀ (w : MemW) (addr : Nat) (e : PErr),
      (mem_build_read_port w addr).2 = .error e →
      (mem_build_read_port w addr).1.blockNets = w.blockNets ∧
      (mem_build_read_port w addr).1.mem.readport_nets = w.mem.readport_nets ∧
      (mem_build_read_port w addr).1.mem.writeport_nets = w.mem.writeport_nets ∧
      (mem_build_read_port w addr).1.nextWire = w.nextWire ∧
      (mem_build_read_port w addr).1 =
        { w with mem := { w.mem with num_read_ports := w.mem.num_read_ports + 1 } }) ∧
    (∀ (w : MemW) (addr data enable : Nat) (e : PErr),
      (mem_build w addr data enable).2 = some e →
      (mem_build w addr data enable).1.blockNets = w.blockNets ∧
      (mem_build w addr data enable).1.mem.writeport_nets = w.mem.writeport_nets ∧
      (mem_build w addr data enable).1.mem.readport_nets = w.mem.readport_nets ∧
      (mem_build w addr data enable).1.nextWire = w.nextWire ∧
      (mem_build w addr data enable).1 =
        { w with mem := { w.mem with num_write_ports := w.mem.num_write_ports + 1 } }) := by
  constructor
  · intro w addr e h
    have heq := (read_err_state w addr e h).1
    rw [heq]
    exact ⟨rfl, rfl, rfl, rfl, rfl⟩
  · intro w addr data enable e h
    have heq := (write_err_state w addr data enable e h).1
    rw [heq]
    exact ⟨rfl, rfl, rfl, rfl, rfl⟩

/-- C9 witness: the failure clauses applied at concrete saturated memories. -/
theorem failed_alloc_witness :
    (mem_build_read_port ⟨⟨3, 3, some 1, some 1, 1, 0, [], [], 0⟩, 10, []⟩ 4).1 =
      ⟨⟨3, 3, some 1, some 1, 2, 0, [], [], 0⟩, 10, []⟩ ∧
    (mem_build ⟨⟨3, 3, some 1, some 1, 0, 1, [], [], 0⟩, 10, []⟩ 4 5 6).1 =
      ⟨⟨3, 3, some 1, some 1, 0, 2, [], [], 0⟩, 10, []⟩ :=
  ⟨(failed_alloc_mutates_only_counter.1
      ⟨⟨3, 3, some 1, some 1, 1, 0, [], [], 0⟩, 10, []⟩ 4 (.maxReadPorts 1)
      (by decide)).2.2.2.2,
   (failed_alloc_mutates_only_counter.2
      ⟨⟨3, 3, some 1, some 1, 0, 1, [], [], 0⟩, 10, []⟩ 4 5 6 (.maxWritePorts 1)
      (by decide)).2.2.2.2⟩

/-- C4: resolution of a container-backed ROM: out-of-range addresses fail;
in-range present entries return the stored value when it lies in
`[0, 2^bitwidth)` and fail as invalid ROM content otherwise; in-range absent
entries return 0 under `pad_with_zeros` and fail as uninitialized data
otherwise. -/
theorem rom_resolve (bw aw : Nat) (pad : Bool) (t : List (Int × Int)) (address : Int) :
    (¬ (0 ≤ address ∧ address < 2 ^ aw) →
      get_read_data bw aw pad (.tbl t) address = .error .invalidAddress) ∧
    (∀ v, (0 ≤ address ∧ address < 2 ^ aw) → tblGet t address = some v →
      ((0 ≤ v ∧ v < 2 ^ bw) → get_read_data bw aw pad (.tbl t) address = .ok v) ∧
      (¬ (0 ≤ v ∧ v < 2 ^ bw) →
        get_read_data bw aw pad (.tbl t) address = .error .invalidValue)) ∧
    ((0 ≤ address ∧ address < 2 ^ aw) → tblGet t address = none →
      (pad = true → get_read_data bw aw pad (.tbl t) address = .ok 0) ∧
      (pad = false → get_read_data bw aw pad (.tbl t) address = .error .uninitKey)) := by
  have h2bw : (0 : Int) < 2 ^ bw := by positivity
  refine ⟨?_, ?_, ?_⟩
  · intro hout
    unfold get_read_data
    rw [if_pos (by omega : address < 0 ∨ address > 2 ^ aw - 1)]
  · intro v hin hget
    constructor
    · intro hv
      unfold get_read_data
      rw [if_neg (by omega : ¬ (address < 0 ∨ address > 2 ^ aw - 1))]
      dsimp only
      rw [hget]
      dsimp only
      rw [if_neg (by omega : ¬ (v < 0 ∨ v ≥ 2 ^ bw))]
    · intro hv
      unfold get_read_data
      rw [if_neg (by omega : ¬ (address < 0 ∨ address > 2 ^ aw - 1))]
      dsimp only
      rw [hget]
      dsimp only
      rw [if_pos (by omega : v < 0 ∨ v ≥ 2 ^ bw)]
  · intro hin hget
    constructor
    · intro hpad
      subst hpad
      unfold get_read_data
      rw [if_neg (by omega : ¬ (address < 0 ∨ address > 2 ^ aw - 1))]
      dsimp only
      rw [hget]
      dsimp only
      rw [if_pos rfl]
      rw [if_neg (by omega : ¬ ((0 : Int) < 0 ∨ (0 : Int) ≥ 2 ^ bw))]
    · intro hpad
      subst hpad
      unfold get_read_data
      rw [if_neg (by omega : ¬ (address < 0 ∨ address > 2 ^ aw - 1))]
      dsimp only
      rw [hget]
      dsimp only
      simp

/-- C4 witness: the spec's end-to-end scenario over `{0: 5, 1: 9}` with
`bitwidth = 4`, `addrwidth = 2`. -/
theorem rom_resolve_witness :
    get_read_data 4 2 false (.tbl [(0, 5), (1, 9)]) 0 = .ok 5 ∧
    get_read_data 4 2 false (.tbl [(0, 5), (1, 9)]) 1 = .ok 9 ∧
    get_read_data 4 2 false (.tbl [(0, 5), (1, 9)]) 2 = .error .uninitKey ∧
    get_read_data 4 2 true (.tbl [(0, 5), (1, 9)]) 2 = .ok 0 ∧
    get_read_data 4 2 false (.tbl [(0, 5), (1, 9)]) 4 = .error .invalidAddress ∧
    get_read_data 4 2 false (.tbl [(0, 5), (1, 9)]) (-1) = .error .invalidAddress ∧
    get_read_data 4 2 false (.tbl [(0, 17), (1, 9)]) 0 = .error .invalidValue :=
  ⟨((rom_resolve 4 2 false [(0, 5), (1, 9)] 0).2.1 5 (by decide) (by decide)).1 (by decide),
   ((rom_resolve 4 2 false [(0, 5), (1, 9)] 1).2.1 9 (by decide) (by decide)).1 (by decide),
   ((rom_resolve 4 2 false [(0, 5), (1, 9)] 2).2.2 (by decide) (by decide)).2 rfl,
   ((rom_resolve 4 2 true [(0, 5), (1, 9)] 2).2.2 (by decide) (by decide)).1 rfl,
   (rom_resolve 4 2 false [(0, 5), (1, 9)] 4).1 (by decide),
   (rom_resolve 4 2 false [(0, 5), (1, 9)] (-1)).1 (by decide),
   ((rom_resolve 4 2 false [(0, 17), (1, 9)] 0).2.1 17 (by decide) (by decide)).2 (by decide)⟩

theorem mkRomBlock_ok {bw aw : Nat} {d : RomData} {mrp : Option Nat} {bnr pad : Bool}
    {mid : Nat} {r : Rom} (h : mkRomBlock bw aw d mrp bnr pad mid = .ok r) :
    r = ⟨⟨bw, aw, mrp, some 0, 0, 0, [], [], mid⟩, d, bnr, pad⟩ := by
  unfold mkRomBlock at h
  rcases hmk : mkMemBlock bw aw mrp (some 0) mid with e | m
  · rw [hmk] at h
    cases h
  · rw [hmk] at h
    injection h with h2
    rw [← h2]
    rw [mkMemBlock_ok hmk]

/-- C7: the index-assignment entry point of a constructed `RomBlock` always
fails with the read-only usage error, for every choice of arguments, mutating
nothing; the `RomBlock` is created with `max_write_ports = 0` and keeps zero
write ports and an empty write-port net list. -/
theorem rom_setitem_rejected :
    ∀ (bw aw : Nat) (d : RomData) (mrp : Option Nat) (bnr pad : Bool) (mid : Nat)
      (r : Rom), mkRomBlock bw aw d mrp bnr pad mid = .ok r →
      (∀ item assignment, rom_setitem r item assignment = (r, .romWrite)) ∧
      r.mem.max_write_ports = some 0 ∧ r.mem.num_write_ports = 0 ∧
      r.mem.writeport_nets = [] := by
  intro bw aw d mrp bnr pad mid r h
  have hr := mkRomBlock_ok h
  subst hr
  exact ⟨fun item assignment => rfl, rfl, rfl, rfl⟩

/-- C7 witness: a concrete `RomBlock` and a concrete rejected write. -/
theorem rom_setitem_rejected_witness :
    mkRomBlock 4 2 (.tbl [(0, 5), (1, 9)]) (some 2) false false 0 =
      .ok ⟨⟨4, 2, some 2, some 0, 0, 0, [], [], 0⟩, .tbl [(0, 5), (1, 9)], false, false⟩ ∧
    rom_setitem ⟨⟨4, 2, some 2, some 0, 0, 0, [], [], 0⟩,
        .tbl [(0, 5), (1, 9)], false, false⟩ 3 7 =
      (⟨⟨4, 2, some 2, some 0, 0, 0, [], [], 0⟩, .tbl [(0, 5), (1, 9)], false, false⟩,
        .romWrite) :=
  ⟨rfl,
   (rom_setitem_rejected 4 2 (.tbl [(0, 5), (1, 9)]) (some 2) false false 0 _ rfl).1 3 7⟩

theorem storeGet_cons_eq (i : Nat) (r : Rom) (rest : List (Nat × Rom)) :
    storeGet ((i, r) :: rest) i = some r := by
  unfold storeGet
  rw [List.find?_cons_of_pos _ (by simp)]
  rfl

theorem storeGet_cons_ne (i j : Nat) (r : Rom) (rest : List (Nat × Rom))
    (hne : ¬ i = j) : storeGet ((i, r) :: rest) j = storeGet rest j := by
  unfold storeGet
  rw [List.find?_cons_of_neg _ (by simp [hne])]

/-- C5: a `RomBlock` created with `build_new_roms = true` and
`max_read_ports = 2`: materializing three read ports through the original
reference yields exactly two underlying memories: the first two ports are
built on the original (`num_read_ports = 2`, two read-port nets carrying its
id), the third on a freshly created replica (fresh id `nid`, one read-port
net) that shares `bitwidth`, `addrwidth`, the data source, and
`pad_with_zeros`, and which becomes the new current replica. -/
theorem rom_replication (bw aw : Nat) (d : RomData) (pad : Bool)
    (mid0 nid nw a1 a2 a3 : Nat) (hbw : ¬ bw = 0) (haw : ¬ aw = 0)
    (hne : ¬ nid = mid0) :
    mkRomBlock bw aw d (some 2) true pad mid0 =
      .ok ⟨⟨bw, aw, some 2, some 0, 0, 0, [], [], mid0⟩, d, true, pad⟩ ∧
    (rom_build_read_port (rom_build_read_port (rom_build_read_port
        (mkRomWorld ⟨⟨bw, aw, some 2, some 0, 0, 0, [], [], mid0⟩, d, true, pad⟩
          mid0 nid nw) a1).1 a2).1 a3) =
      (⟨[(mid0, ⟨⟨bw, aw, some 2, some 0, 2, 0,
            [⟨'m', mid0, [a1], [nw]⟩, ⟨'m', mid0, [a2], [nw + 1]⟩], [], mid0⟩,
            d, true, pad⟩),
         (nid, ⟨⟨bw, aw, some 2, some 0, 1, 0,
            [⟨'m', nid, [a3], [nw + 2]⟩], [], nid⟩, d, false, pad⟩)],
        mid0, nid, nid + 1, nw + 3,
        [⟨'m', mid0, [a1], [nw]⟩, ⟨'m', mid0, [a2], [nw + 1]⟩,
         ⟨'m', nid, [a3], [nw + 2]⟩]⟩, .ok (nw + 2)) := by
  have hne2 : ¬ mid0 = nid := fun h => hne h.symm
  constructor
  · unfold mkRomBlock mkMemBlock
    rw [if_neg hbw, if_neg haw]
  · simp [rom_build_read_port, mem_build_read_port, mkRomWorld, mkRomBlock,
      mkMemBlock, storeGet, storeSet, hbw, haw, hne, hne2, List.find?]

/-- C5 witness: the replication theorem applied at a concrete `RomBlock`. -/
theorem rom_replication_witness :
    mkRomBlock 4 2 (.tbl [(0, 5)]) (some 2) true false 0 =
      .ok ⟨⟨4, 2, some 2, some 0, 0, 0, [], [], 0⟩, .tbl [(0, 5)], true, false⟩ ∧
    (rom_build_read_port (rom_build_read_port (rom_build_read_port
        (mkRomWorld ⟨⟨4, 2, some 2, some 0, 0, 0, [], [], 0⟩, .tbl [(0, 5)],
          true, false⟩ 0 1 100) 7).1 8).1 9) =
      (⟨[(0, ⟨⟨4, 2, some 2, some 0, 2, 0,
            [⟨'m', 0, [7], [100]⟩, ⟨'m', 0, [8], [101]⟩], [], 0⟩,
            .tbl [(0, 5)], true, false⟩),
         (1, ⟨⟨4, 2, some 2, some 0, 1, 0,
            [⟨'m', 1, [9], [102]⟩], [], 1⟩, .tbl [(0, 5)], false, false⟩)],
        0, 1, 2, 103,
        [⟨'m', 0, [7], [100]⟩, ⟨'m', 0, [8], [101]⟩, ⟨'m', 1, [9], [102]⟩]⟩,
        .ok 102) :=
  rom_replication 4 2 (.tbl [(0, 5)]) false 0 1 100 7 8 9
    (by decide) (by decide) (by decide)
